import Mathlib

/-!
Verification of the `minimax` Go package (alpha-beta minimax with a move
cache).  The repository contains two versions of the engine: an older eager
variant (tree built up front by `makeNode`, then evaluated) and the current
lazy variant (children materialised during evaluation).  Both are embedded
below, together with a spec-side unpruned minimax used as the reference
value function.

Conventions of the embedding:
* Go pointers `*T` to immutable states become plain values of `T`.
* The adapter triple (`isTerminal`, `utility`, `successors`) is a structure
  of pure functions, mirroring the `config` field of the Go `Minimax` struct.
* The Go map `map[T]*T` becomes an association list; a Go map write is a
  cons at the front and lookup takes the most recent binding, which agrees
  with Go map semantics for the lookups the code performs.
* General recursion is indexed by fuel; `Res.noFuel` marks a run that did
  not finish within the given fuel (the Go code simply recurses).
* The nil-pointer dereference `mp[*n.elem] = n.bestMove.elem` with
  `n.bestMove == nil` is modelled by `Res.panicked`.
-/

set_option linter.unusedSectionVars false

namespace MinimaxGo

variable {T : Type} [DecidableEq T]

/-- Rules adapter: the three per-state operations the engine consumes
(`isTerminal`, `utility`, `successors` in the Go source). -/
structure Adapter (T : Type) where
  isTerminal : T → Bool
  utility : T → Int
  successors : T → List T

/-- SCORE, the default score for the terminal state (`const SCORE = 100`). -/
def score : Int := 100

/-- Terminal scoring switch of `minimax`: `u > 0 ↦ SCORE - depth`,
`u < 0 ↦ depth - SCORE`, otherwise `0`. -/
def termScore (u : Int) (depth : Nat) : Int :=
  if u > 0 then score - depth
  else if u < 0 then (depth : Int) - score
  else 0

/-- Outcome of one evaluator run: a value together with the cache after the
run, a nil-pointer panic, or fuel exhaustion (the Go code would still be
recursing). -/
inductive Res (T : Type) where
  | ok : Int → List (T × T) → Res T
  | panicked : Res T
  | noFuel : Res T
deriving DecidableEq

/-- Lookup in the association-list model of the Go move map; the head is the
most recent write. -/
def lookupc : List (T × T) → T → Option T
  | [], _ => none
  | (k, v) :: rest, s => if k = s then some v else lookupc rest s

/-- Child loop of a maximizing node, shared verbatim by both variants of
`minimax`: pass the current window down, recurse, update the running maximum
and best move on strict improvement, raise alpha, break on `beta ≤ alpha`;
after the loop, write `mp[*n.elem] = n.bestMove.elem` (a panic if no child
ever improved).  `celem` projects a child to its state. -/
def maxLoop {γ : Type} (evalChild : Int → Int → γ → List (T × T) → Res T)
    (celem : γ → T) (elem : T) :
    List γ → Int → Int → Int → Option γ → List (T × T) → Res T
  | [], _, _, maxEval, bestMove, mp =>
    match bestMove with
    | some b => .ok maxEval ((elem, celem b) :: mp)
    | none => .panicked
  | child :: rest, alpha, beta, maxEval, bestMove, mp =>
    match evalChild alpha beta child mp with
    | .panicked => .panicked
    | .noFuel => .noFuel
    | .ok eval mp1 =>
      let maxEval1 := if eval > maxEval then eval else maxEval
      let bestMove1 := if eval > maxEval then some child else bestMove
      let alpha1 := max alpha maxEval1
      if beta ≤ alpha1 then
        match bestMove1 with
        | some b => .ok maxEval1 ((elem, celem b) :: mp1)
        | none => .panicked
      else maxLoop evalChild celem elem rest alpha1 beta maxEval1 bestMove1 mp1

/-- Child loop of a minimizing node, mirror image of `maxLoop`: update on
strict decrease, lower beta, break on `beta ≤ alpha`. -/
def minLoop {γ : Type} (evalChild : Int → Int → γ → List (T × T) → Res T)
    (celem : γ → T) (elem : T) :
    List γ → Int → Int → Int → Option γ → List (T × T) → Res T
  | [], _, _, minEval, bestMove, mp =>
    match bestMove with
    | some b => .ok minEval ((elem, celem b) :: mp)
    | none => .panicked
  | child :: rest, alpha, beta, minEval, bestMove, mp =>
    match evalChild alpha beta child mp with
    | .panicked => .panicked
    | .noFuel => .noFuel
    | .ok eval mp1 =>
      let minEval1 := if eval < minEval then eval else minEval
      let bestMove1 := if eval < minEval then some child else bestMove
      let beta1 := min beta minEval1
      if beta1 ≤ alpha then
        match bestMove1 with
        | some b => .ok minEval1 ((elem, celem b) :: mp1)
        | none => .panicked
      else minLoop evalChild celem elem rest alpha beta1 minEval1 bestMove1 mp1

/-- Engine struct (`Minimax[T]`): the move cache plus the stored adapter
configuration, with the Go `config` sub-struct flattened into fields. -/
structure Minimax (T : Type) where
  moveMap : List (T × T)
  isTerminal : T → Bool
  utility : T → Int
  successors : T → List T
  isMax : Bool

/-- Result of one `Solve` call.  The `Option T` is the Go return value
(`nil` = no move); the `Nat` instruments how many rebuilds the call
performed; `fail` means the call did not return within the fuel. -/
inductive SolveRes (T : Type) where
  | ret : Option T → Nat → SolveRes T
  | fail : SolveRes T
deriving DecidableEq

namespace Lazy

/-- Lazy-variant evaluator (current `minimax`, second half of the source):
a node is its state, depth, role and inherited window; children are produced
by `expandNode` at visit time, which for pure adapters is exactly
`successors elem` with depth+1 and flipped role. -/
def minimax (a : Adapter T) : Nat → Int → Int → T → Nat → Bool → List (T × T) → Res T
  | 0, _, _, _, _, _, _ => .noFuel
  | fuel + 1, alpha, beta, elem, depth, isMax, mp =>
    if a.isTerminal elem then .ok (termScore (a.utility elem) depth) mp
    else
      match a.successors elem with
      | [] => .ok (a.utility elem) mp
      | c :: cs =>
        if isMax then
          maxLoop (fun al be child mp2 => minimax a fuel al be child (depth + 1) false mp2)
            id elem (c :: cs) alpha beta (-score) none mp
        else
          minLoop (fun al be child mp2 => minimax a fuel al be child (depth + 1) true mp2)
            id elem (c :: cs) alpha beta score none mp

/-- Lazy-variant `Make`: run the evaluator from a fresh root (window
`(-score, score)`, depth 0) and package the resulting cache with the
configuration. -/
def Make (evalFuel : Nat) (state : T) (isTerminal : T → Bool) (utility : T → Int)
    (successors : T → List T) (isMax : Bool) : Option (Minimax T) :=
  match minimax ⟨isTerminal, utility, successors⟩ evalFuel (-score) score state 0 isMax [] with
  | .ok _ mp => some ⟨mp, isTerminal, utility, successors, isMax⟩
  | _ => none

/-- Lazy-variant `Solve` (value receiver): terminal states return nil; cache
hit returns the cached move; on a miss, rebuild via `Make`, replace the
local copy of the map, and retry.  The retry is the Go tail call
`m.Solve(state)`; the returned `Nat` counts those rebuild rounds. -/
def Solve (evalFuel : Nat) : Nat → Minimax T → T → SolveRes T
  | 0, _, _ => .fail
  | f + 1, m, state =>
    if m.isTerminal state then .ret none 0
    else
      match lookupc m.moveMap state with
      | some bestMove => .ret (some bestMove) 0
      | none =>
        match Make evalFuel state m.isTerminal m.utility m.successors m.isMax with
        | some newMM =>
          match Solve evalFuel f { m with moveMap := newMM.moveMap } state with
          | .ret r k => .ret r (k + 1)
          | .fail => .fail
        | none => .fail

end Lazy

namespace Eager

/-- Search-tree node of the eager variant (first half of the source); the
mutable `val`, `alpha`, `beta`, `bestMove` fields live in the evaluator
state instead. -/
inductive node (T : Type) where
  | mk (elem : T) (depth : Nat) (isMax : Bool) (children : List (node T)) : node T

/-- State stored at an eager node. -/
def node.elem : node T → T
  | .mk e _ _ _ => e

/-- Build one node per successor state, in order, failing if any build
fails; this is the loop body of the eager `makeNode`. -/
def buildList (f : T → Option (node T)) : List T → Option (List (node T))
  | [] => some []
  | c :: cs => do
    let n ← f c
    let ns ← buildList f cs
    some (n :: ns)

/-- Eager `makeNode`: recursively expand every successor up front (note the
source expands successors of terminal states too). -/
def makeNode (a : Adapter T) : Nat → T → Nat → Bool → Option (node T)
  | 0, _, _, _ => none
  | fuel + 1, state, depth, isMax => do
    let children ← buildList (fun succ => makeNode a fuel succ (depth + 1) (!isMax))
      (a.successors state)
    some (node.mk state depth isMax children)

/-- Eager-variant evaluator.  Faithful to the source, the inherited window
is overwritten at entry (`n.alpha = -SCORE; n.beta = SCORE`), and a node
that is terminal or childless is scored by the depth-adjusted switch. -/
def minimax (a : Adapter T) : Nat → Int → Int → node T → List (T × T) → Res T
  | 0, _, _, _, _ => .noFuel
  | fuel + 1, _, _, .mk elem depth isMax children, mp =>
    let alpha : Int := -score
    let beta : Int := score
    if a.isTerminal elem || children.isEmpty then
      .ok (termScore (a.utility elem) depth) mp
    else if isMax then
      maxLoop (fun al be child mp2 => minimax a fuel al be child mp2)
        node.elem elem children alpha beta (-score) none mp
    else
      minLoop (fun al be child mp2 => minimax a fuel al be child mp2)
        node.elem elem children alpha beta score none mp

/-- Eager-variant `Make`: build the whole tree, then evaluate it. -/
def Make (fuel : Nat) (state : T) (isTerminal : T → Bool) (utility : T → Int)
    (successors : T → List T) (isMax : Bool) : Option (Minimax T) :=
  match makeNode ⟨isTerminal, utility, successors⟩ fuel state 0 isMax with
  | none => none
  | some root =>
    match minimax ⟨isTerminal, utility, successors⟩ fuel (-score) score root [] with
    | .ok _ mp => some ⟨mp, isTerminal, utility, successors, isMax⟩
    | _ => none

/-- Eager-variant `Solve`: identical to the lazy one except that it has no
terminal-state check before the cache lookup. -/
def Solve (fuel0 : Nat) : Nat → Minimax T → T → SolveRes T
  | 0, _, _ => .fail
  | f + 1, m, state =>
    match lookupc m.moveMap state with
    | some bestMove => .ret (some bestMove) 0
    | none =>
      match Make fuel0 state m.isTerminal m.utility m.successors m.isMax with
      | some newMM =>
        match Solve fuel0 f { m with moveMap := newMM.moveMap } state with
        | .ret r k => .ret r (k + 1)
        | .fail => .fail
      | none => .fail

end Eager

/-! Spec-side reference: the exhaustive, unpruned minimax value that §8 of
the specification cross-checks the engine against, written from the spec's
scoring policy (terminal positions depth-adjusted, childless non-terminal
positions scored by raw utility). -/

/-- Evaluate every element of a list, failing if any evaluation fails. -/
def evalList (f : T → Option Int) : List T → Option (List Int)
  | [] => some []
  | c :: cs => do
    let v ← f c
    let vs ← evalList f cs
    some (v :: vs)

/-- Reference unpruned minimax value of a state at a given depth and role,
following the spec's words: terminal states score `termScore`, childless
non-terminal states score raw utility, interior states take the
maximum/minimum of their children's values. -/
def mm (a : Adapter T) : Nat → T → Nat → Bool → Option Int
  | 0, _, _, _ => none
  | fuel + 1, s, depth, isMax =>
    if a.isTerminal s then some (termScore (a.utility s) depth)
    else
      match a.successors s with
      | [] => some (a.utility s)
      | c :: cs => do
        let v0 ← mm a fuel c (depth + 1) (!isMax)
        let vs ← evalList (fun t => mm a fuel t (depth + 1) (!isMax)) cs
        some (if isMax then vs.foldl max v0 else vs.foldl min v0)

/-- Search reachability: `SReach a s d t e` holds when expanding non-terminal
states from `s` (taken at depth `d`) can visit `t` at depth `e`.  Used to
state per-game depth hypotheses. -/
inductive SReach (a : Adapter T) : T → Nat → T → Nat → Prop where
  | refl (s : T) (d : Nat) : SReach a s d s d
  | step {s : T} {d : Nat} {t : T} {e : Nat} {c : T} :
      SReach a s d t e → a.isTerminal t = false → c ∈ a.successors t →
      SReach a s d c (e + 1)

/-- Adapter utilities lie strictly inside the scoring window. -/
def UtilOK (a : Adapter T) : Prop := ∀ t, -score < a.utility t ∧ a.utility t < score

/-- Every terminal position searchable from `(s, d)` lies at depth
strictly below 100. -/
def DepthOK (a : Adapter T) (s : T) (d : Nat) : Prop :=
  ∀ t e, SReach a s d t e → a.isTerminal t = true → e < 100

theorem SReach.depth_le {a : Adapter T} {s t : T} {d e : Nat}
    (h : SReach a s d t e) : d ≤ e := by
  induction h with
  | refl => exact Nat.le_refl _
  | step _ _ _ ih => exact Nat.le_succ_of_le ih

theorem SReach.through_child {a : Adapter T} {s c t : T} {d e : Nat}
    (hnt : a.isTerminal s = false) (hc : c ∈ a.successors s)
    (h : SReach a c (d + 1) t e) : SReach a s d t e := by
  induction h with
  | refl => exact SReach.step (SReach.refl s d) hnt hc
  | step _ ht hc2 ih => exact SReach.step ih ht hc2

theorem DepthOK.child {a : Adapter T} {s c : T} {d : Nat}
    (hd : DepthOK a s d) (hnt : a.isTerminal s = false)
    (hc : c ∈ a.successors s) : DepthOK a c (d + 1) :=
  fun t e hr ht => hd t e (hr.through_child hnt hc) ht

/-- Bounding the search depth via a strictly decreasing measure; used to
discharge `DepthOK` on concrete games. -/
theorem SReach.depth_bound {a : Adapter T} {s t : T} {d e : Nat}
    (meas : T → Nat)
    (hm : ∀ u c, a.isTerminal u = false → c ∈ a.successors u → meas c < meas u)
    (h : SReach a s d t e) : e + meas t ≤ d + meas s := by
  induction h with
  | refl => exact Nat.le_refl _
  | step hr ht hc ih =>
    have := hm _ _ ht hc
    omega

theorem termScore_range {u : Int} {d : Nat} (h1 : 0 < d) (h2 : d < 100) :
    -score < termScore u d ∧ termScore u d < score := by
  have hd1 : (1 : Int) ≤ (d : Int) := by exact_mod_cast h1
  have hd2 : (d : Int) < 100 := by exact_mod_cast h2
  unfold termScore score
  split_ifs <;> constructor <;> omega

/-! Elementary facts about `foldl max` / `foldl min` over integer lists. -/

theorem foldl_max_init_le (init : Int) (l : List Int) : init ≤ l.foldl max init := by
  induction l generalizing init with
  | nil => exact le_refl _
  | cons x xs ih => exact le_trans (le_max_left _ _) (ih (max init x))

theorem foldl_max_mem_le {l : List Int} {x : Int} (init : Int) (hx : x ∈ l) :
    x ≤ l.foldl max init := by
  induction l generalizing init with
  | nil => cases hx
  | cons y ys ih =>
    rcases List.mem_cons.mp hx with h | h
    · subst h
      exact le_trans (le_max_right _ _) (foldl_max_init_le _ _)
    · exact ih (max init y) h

theorem foldl_max_le {l : List Int} {init c : Int} (h0 : init ≤ c)
    (h : ∀ x ∈ l, x ≤ c) : l.foldl max init ≤ c := by
  induction l generalizing init with
  | nil => exact h0
  | cons y ys ih =>
    exact ih (max_le h0 (h y (List.mem_cons_self _ _)))
      (fun x hx => h x (List.mem_cons_of_mem _ hx))

theorem foldl_max_attained (l : List Int) (init : Int) :
    l.foldl max init = init ∨ l.foldl max init ∈ l := by
  induction l generalizing init with
  | nil => exact Or.inl rfl
  | cons y ys ih =>
    rcases ih (max init y) with h | h
    · rcases max_cases init y with ⟨he, _⟩ | ⟨he, _⟩
      · left
        rw [List.foldl_cons, h, he]
      · right
        rw [List.foldl_cons, h, he]
        exact List.mem_cons_self _ _
    · right
      exact List.mem_cons_of_mem _ h

theorem foldl_min_le_init (init : Int) (l : List Int) : l.foldl min init ≤ init := by
  induction l generalizing init with
  | nil => exact le_refl _
  | cons x xs ih => exact le_trans (ih (min init x)) (min_le_left _ _)

theorem foldl_min_le_mem {l : List Int} {x : Int} (init : Int) (hx : x ∈ l) :
    l.foldl min init ≤ x := by
  induction l generalizing init with
  | nil => cases hx
  | cons y ys ih =>
    rcases List.mem_cons.mp hx with h | h
    · subst h
      exact le_trans (foldl_min_le_init (min init x) ys) (min_le_right init x)
    · exact ih (min init y) h

theorem le_foldl_min {l : List Int} {init c : Int} (h0 : c ≤ init)
    (h : ∀ x ∈ l, c ≤ x) : c ≤ l.foldl min init := by
  induction l generalizing init with
  | nil => exact h0
  | cons y ys ih =>
    exact ih (le_min h0 (h y (List.mem_cons_self _ _)))
      (fun x hx => h x (List.mem_cons_of_mem _ hx))

theorem foldl_min_attained (l : List Int) (init : Int) :
    l.foldl min init = init ∨ l.foldl min init ∈ l := by
  induction l generalizing init with
  | nil => exact Or.inl rfl
  | cons y ys ih =>
    rcases ih (min init y) with h | h
    · rcases min_cases init y with ⟨he, _⟩ | ⟨he, _⟩
      · left
        rw [List.foldl_cons, h, he]
      · right
        rw [List.foldl_cons, h, he]
        exact List.mem_cons_self _ _
    · right
      exact List.mem_cons_of_mem _ h

/-! Destructors for `evalList` and `mm`. -/

theorem evalList_mem {f : T → Option Int} :
    ∀ {cs : List T} {vs : List Int}, evalList f cs = some vs →
      ∀ c ∈ cs, ∃ v, f c = some v ∧ v ∈ vs := by
  intro cs
  induction cs with
  | nil => intro vs _ c hc; cases hc
  | cons c0 cs ih =>
    intro vs h c hc
    simp only [evalList, Option.bind_eq_bind, bind, Option.bind] at h
    rcases h0 : f c0 with _ | v0
    · rw [h0] at h; cases h
    · rw [h0] at h
      rcases h1 : evalList f cs with _ | vs0
      · rw [h1] at h; cases h
      · rw [h1] at h
        simp only [Option.some.injEq] at h
        subst h
        rcases List.mem_cons.mp hc with hc0 | hc1
        · exact ⟨v0, hc0 ▸ h0, List.mem_cons_self _ _⟩
        · rcases ih h1 c hc1 with ⟨v, hv, hvm⟩
          exact ⟨v, hv, List.mem_cons_of_mem _ hvm⟩

theorem evalList_mem_rev {f : T → Option Int} :
    ∀ {cs : List T} {vs : List Int}, evalList f cs = some vs →
      ∀ v ∈ vs, ∃ c ∈ cs, f c = some v := by
  intro cs
  induction cs with
  | nil =>
    intro vs h v hv
    simp only [evalList, Option.some.injEq] at h
    subst h; cases hv
  | cons c0 cs ih =>
    intro vs h v hv
    simp only [evalList, Option.bind_eq_bind, bind, Option.bind] at h
    rcases h0 : f c0 with _ | v0
    · rw [h0] at h; cases h
    · rw [h0] at h
      rcases h1 : evalList f cs with _ | vs0
      · rw [h1] at h; cases h
      · rw [h1] at h
        simp only [Option.some.injEq] at h
        subst h
        rcases List.mem_cons.mp hv with hv0 | hv1
        · exact ⟨c0, List.mem_cons_self _ _, hv0 ▸ h0⟩
        · rcases ih h1 v hv1 with ⟨c, hc, hfc⟩
          exact ⟨c, List.mem_cons_of_mem _ hc, hfc⟩

theorem evalList_of_pointwise {f : T → Option Int} :
    ∀ {cs : List T}, (∀ c ∈ cs, ∃ v, f c = some v) →
      ∃ vs, evalList f cs = some vs := by
  intro cs
  induction cs with
  | nil => intro _; exact ⟨[], rfl⟩
  | cons c0 cs ih =>
    intro h
    rcases h c0 (List.mem_cons_self _ _) with ⟨v0, hv0⟩
    rcases ih (fun c hc => h c (List.mem_cons_of_mem _ hc)) with ⟨vs, hvs⟩
    exact ⟨v0 :: vs, by simp [evalList, hv0, hvs]⟩

theorem evalList_map {f : T → Option Int} {g : T → Int} :
    ∀ {cs : List T} {vs : List Int}, evalList f cs = some vs →
      (∀ c ∈ cs, f c = some (g c)) → vs = cs.map g := by
  intro cs
  induction cs with
  | nil =>
    intro vs h _
    simp only [evalList, Option.some.injEq] at h
    simp [h.symm]
  | cons c0 cs ih =>
    intro vs h hg
    have h0 := hg c0 (List.mem_cons_self _ _)
    rw [evalList, h0] at h
    rcases h1 : evalList f cs with _ | vs0
    · rw [h1] at h; cases h
    · rw [h1] at h
      simp only [Option.bind_eq_bind, Option.some_bind, Option.some.injEq] at h
      subst h
      simp [ih h1 (fun c hc => hg c (List.mem_cons_of_mem _ hc))]

theorem evalList_mono {f g : T → Option Int}
    (hfg : ∀ c v, f c = some v → g c = some v) :
    ∀ {cs : List T} {vs : List Int}, evalList f cs = some vs →
      evalList g cs = some vs := by
  intro cs
  induction cs with
  | nil => intro vs h; exact h
  | cons c0 cs ih =>
    intro vs h
    rcases h0 : f c0 with _ | v0
    · rw [evalList, h0] at h; cases h
    · rw [evalList, h0] at h
      rcases h1 : evalList f cs with _ | vs0
      · rw [h1] at h; cases h
      · rw [h1] at h
        simp only [Option.bind_eq_bind, Option.some_bind] at h
        rw [evalList, hfg c0 v0 h0, ih h1]
        simpa using h

/-- Destructor for `mm` at an interior (non-terminal, nonempty-successors)
position. -/
theorem mm_interior {a : Adapter T} {fuel : Nat} {s : T} {d : Nat} {m : Bool} {v : Int}
    {c0 : T} {cs : List T}
    (ht : a.isTerminal s = false) (hs : a.successors s = c0 :: cs)
    (h : mm a (fuel + 1) s d m = some v) :
    ∃ v0 vs, mm a fuel c0 (d + 1) (!m) = some v0 ∧
      evalList (fun t => mm a fuel t (d + 1) (!m)) cs = some vs ∧
      v = if m then vs.foldl max v0 else vs.foldl min v0 := by
  rw [mm, ht, hs] at h
  simp only [Bool.false_eq_true, if_false] at h
  rcases h0 : mm a fuel c0 (d + 1) (!m) with _ | v0
  · rw [h0] at h; cases h
  · rw [h0] at h
    rcases h1 : evalList (fun t => mm a fuel t (d + 1) (!m)) cs with _ | vs
    · rw [h1] at h; cases h
    · rw [h1] at h
      simp only [Option.bind_eq_bind, Option.some_bind, Option.some.injEq] at h
      exact ⟨v0, vs, rfl, rfl, h.symm⟩

theorem mm_interior_intro {a : Adapter T} {fuel : Nat} {s : T} {d : Nat} {m : Bool}
    {c0 : T} {cs : List T} {v0 : Int} {vs : List Int}
    (ht : a.isTerminal s = false) (hs : a.successors s = c0 :: cs)
    (h0 : mm a fuel c0 (d + 1) (!m) = some v0)
    (h1 : evalList (fun t => mm a fuel t (d + 1) (!m)) cs = some vs) :
    mm a (fuel + 1) s d m = some (if m then vs.foldl max v0 else vs.foldl min v0) := by
  rw [mm, ht, hs]
  simp only [Bool.false_eq_true, if_false]
  rw [h0, h1]
  rfl

theorem mm_terminal {a : Adapter T} {fuel : Nat} {s : T} {d : Nat} {m : Bool}
    (ht : a.isTerminal s = true) :
    mm a (fuel + 1) s d m = some (termScore (a.utility s) d) := by
  rw [mm, ht]
  rfl

theorem mm_childless {a : Adapter T} {fuel : Nat} {s : T} {d : Nat} {m : Bool}
    (ht : a.isTerminal s = false) (hs : a.successors s = []) :
    mm a (fuel + 1) s d m = some (a.utility s) := by
  rw [mm, ht, hs]
  rfl

theorem mm_mono_succ {a : Adapter T} :
    ∀ {fuel : Nat} {s : T} {d : Nat} {m : Bool} {v : Int},
      mm a fuel s d m = some v → mm a (fuel + 1) s d m = some v := by
  intro fuel
  induction fuel with
  | zero => intro s d m v h; cases h
  | succ f ih =>
    intro s d m v h
    rcases ht : a.isTerminal s with _ | _
    · rcases hs : a.successors s with _ | ⟨c0, cs⟩
      · rw [mm_childless ht hs] at h
        rw [mm_childless ht hs]
        exact h
      · rcases mm_interior ht hs h with ⟨v0, vs, h0, h1, hv⟩
        have h1m := evalList_mono (fun c v hv => ih hv) h1
        have := mm_interior_intro ht hs (ih h0) h1m
        rw [this, hv]
    · rw [mm_terminal ht] at h
      rw [mm_terminal ht]
      exact h

theorem mm_mono {a : Adapter T} {f1 f2 : Nat} {s : T} {d : Nat} {m : Bool} {v : Int}
    (hf : f1 ≤ f2) (h : mm a f1 s d m = some v) : mm a f2 s d m = some v := by
  induction hf with
  | refl => exact h
  | step _ ih => exact mm_mono_succ ih

/-- Reference values stay strictly inside the scoring window at positive
depth, given in-window utilities and shallow terminals. -/
theorem mm_range {a : Adapter T} (hu : UtilOK a) :
    ∀ {fuel : Nat} {s : T} {d : Nat} {m : Bool} {v : Int},
      mm a fuel s d m = some v → DepthOK a s d → 0 < d →
      -score < v ∧ v < score := by
  intro fuel
  induction fuel with
  | zero => intro s d m v h; cases h
  | succ f ih =>
    intro s d m v h hd hdpos
    rcases ht : a.isTerminal s with _ | _
    · rcases hs : a.successors s with _ | ⟨c0, cs⟩
      · rw [mm_childless ht hs] at h
        cases h
        exact hu s
      · rcases mm_interior ht hs h with ⟨v0, vs, h0, h1, hv⟩
        have hc0 : c0 ∈ a.successors s := by rw [hs]; exact List.mem_cons_self _ _
        have hr0 := ih h0 (hd.child ht hc0) (Nat.succ_pos d)
        have hrs : ∀ x ∈ vs, -score < x ∧ x < score := by
          intro x hx
          rcases evalList_mem_rev h1 x hx with ⟨c, hc, hfc⟩
          have hcm : c ∈ a.successors s := by
            rw [hs]; exact List.mem_cons_of_mem _ hc
          exact ih hfc (hd.child ht hcm) (Nat.succ_pos d)
        rcases m with _ | _
        · simp only [Bool.false_eq_true, if_false] at hv
          subst hv
          rcases foldl_min_attained vs v0 with he | he
          · rw [he]; exact hr0
          · exact hrs _ he
        · simp only [if_true] at hv
          subst hv
          rcases foldl_max_attained vs v0 with he | he
          · rw [he]; exact hr0
          · exact hrs _ he
    · rw [mm_terminal ht] at h
      cases h
      have hdlt : d < 100 := hd s d (SReach.refl s d) ht
      exact termScore_range hdpos hdlt

/-- Unfolding equation for one step of `maxLoop` once the child evaluation
is known. -/
theorem maxLoop_cons_eq {γ : Type} {evalChild : Int → Int → γ → List (T × T) → Res T}
    {celem : γ → T} {elem : T} {child : γ} {rest : List γ}
    {alpha beta maxEval eval : Int} {bestMove : Option γ} {mp mpc : List (T × T)}
    (heval : evalChild alpha beta child mp = .ok eval mpc) :
    maxLoop evalChild celem elem (child :: rest) alpha beta maxEval bestMove mp =
      if beta ≤ max alpha (if maxEval < eval then eval else maxEval) then
        (match (if maxEval < eval then some child else bestMove) with
         | some b => Res.ok (if maxEval < eval then eval else maxEval) ((elem, celem b) :: mpc)
         | none => Res.panicked)
      else
        maxLoop evalChild celem elem rest
          (max alpha (if maxEval < eval then eval else maxEval)) beta
          (if maxEval < eval then eval else maxEval)
          (if maxEval < eval then some child else bestMove) mpc := by
  simp only [maxLoop, heval, gt_iff_lt]

/-- Unfolding equation for one step of `minLoop` once the child evaluation
is known. -/
theorem minLoop_cons_eq {γ : Type} {evalChild : Int → Int → γ → List (T × T) → Res T}
    {celem : γ → T} {elem : T} {child : γ} {rest : List γ}
    {alpha beta minEval eval : Int} {bestMove : Option γ} {mp mpc : List (T × T)}
    (heval : evalChild alpha beta child mp = .ok eval mpc) :
    minLoop evalChild celem elem (child :: rest) alpha beta minEval bestMove mp =
      if min beta (if eval < minEval then eval else minEval) ≤ alpha then
        (match (if eval < minEval then some child else bestMove) with
         | some b => Res.ok (if eval < minEval then eval else minEval) ((elem, celem b) :: mpc)
         | none => Res.panicked)
      else
        minLoop evalChild celem elem rest
          alpha (min beta (if eval < minEval then eval else minEval))
          (if eval < minEval then eval else minEval)
          (if eval < minEval then some child else bestMove) mpc := by
  simp only [minLoop, heval]

/-- Invariant lemma for the maximizing child loop.  `vc` gives the
reference (unpruned) value of each child, `V` an upper bound attained
within the remaining children or the accumulator, and `A` the alpha value
the node was entered with.  The conclusions are the fail-hard window bounds
on the returned value, well-formedness of the cache writes, and exactness
of both the value and the recorded best move when the true value lies
strictly inside the window. -/
theorem maxLoop_spec {γ : Type} (a : Adapter T)
    (evalChild : Int → Int → γ → List (T × T) → Res T)
    (celem : γ → T) (vc : γ → Int) (elem : T) (A beta : Int) (cs0 : List γ) (V : Int)
    (hA : -score ≤ A) (hAb : A < beta) (hb : beta ≤ score)
    (hrange : ∀ c ∈ cs0, -score < vc c ∧ vc c < score)
    (hattain : ∀ c ∈ cs0, vc c ≤ V)
    (hev : ∀ c ∈ cs0, ∀ al mp0, -score ≤ al → al < beta →
      ∃ w mp1, evalChild al beta c mp0 = .ok w mp1 ∧
        w ≤ max al (vc c) ∧ min beta (vc c) ≤ w ∧
        (∀ p ∈ mp1, p ∈ mp0 ∨ p.2 ∈ a.successors p.1))
    (hmape : ∀ c ∈ cs0, celem c ∈ a.successors elem) :
    ∀ (cs pre : List γ) (alpha maxEval : Int) (best : Option γ) (mp : List (T × T)),
      cs0 = pre ++ cs →
      alpha = max A maxEval →
      alpha < beta →
      -score ≤ maxEval →
      (best = none → maxEval = -score ∧ pre = []) →
      (∀ b, best = some b →
        (∃ pb sb, pre = pb ++ b :: sb ∧ ∀ c ∈ pb, min beta (vc c) < maxEval) ∧
        maxEval ≤ max A (vc b) ∧ min beta (vc b) ≤ maxEval) →
      (∀ c ∈ pre, min beta (vc c) ≤ maxEval) →
      maxEval ≤ max A V →
      (min beta V ≤ maxEval ∨ ∃ c ∈ cs, V ≤ vc c) →
      (pre = [] → cs ≠ []) →
      ∃ w mp1 b,
        maxLoop evalChild celem elem cs alpha beta maxEval best mp = .ok w mp1 ∧
        maxEval ≤ w ∧ w ≤ max A V ∧ min beta V ≤ w ∧
        lookupc mp1 elem = some (celem b) ∧ b ∈ cs0 ∧
        (∀ p ∈ mp1, p ∈ mp ∨ p.2 ∈ a.successors p.1) ∧
        (A < V → V < beta →
          w = V ∧ vc b = V ∧
          ∃ p2 s2, cs0 = p2 ++ b :: s2 ∧ ∀ c ∈ p2, vc c < V) := by
  intro cs
  induction cs with
  | nil =>
    intro pre alpha maxEval best mp hsplit halpha hacut hmelo hbnone hbsome hpre hub hVlow hne
    rcases best with _ | b
    · rcases hbnone rfl with ⟨_, hpre0⟩
      exact absurd rfl (hne hpre0)
    · rcases hbsome b rfl with ⟨⟨pb, sb, hpredec, hpb⟩, hbub, hblb⟩
      have hlow : min beta V ≤ maxEval := by
        rcases hVlow with h | ⟨c, hc, _⟩
        · exact h
        · cases hc
      have hbmem : b ∈ cs0 := by
        rw [hsplit, hpredec]
        simp
      refine ⟨maxEval, (elem, celem b) :: mp, b, rfl, le_refl _, hub, hlow, ?_, hbmem, ?_, ?_⟩
      · simp [lookupc]
      · intro p hp
        rcases List.mem_cons.mp hp with rfl | hp2
        · exact Or.inr (hmape b hbmem)
        · exact Or.inl hp2
      · intro hAV hVb
        have hw : maxEval = V := by clear * - hub hlow hAV hVb; omega
        have hvb : vc b = V := by
          have h1 := hattain b hbmem
          clear * - hbub h1 hw hAV
          omega
        refine ⟨hw, hvb, pb, sb, by rw [hsplit, hpredec]; simp, ?_⟩
        intro c hc
        have h2 := hpb c hc
        clear * - h2 hw hVb
        omega
  | cons c rest ih =>
    intro pre alpha maxEval best mp hsplit halpha hacut hmelo hbnone hbsome hpre hub hVlow hne
    have hcmem : c ∈ cs0 := by
      rw [hsplit]
      exact List.mem_append_right _ (List.mem_cons_self _ _)
    have halge : -score ≤ alpha := by omega
    rcases hev c hcmem alpha mp halge hacut with ⟨wc, mpc, heval, hwub, hwlb, hcachec⟩
    have hcr := hrange c hcmem
    have hca := hattain c hcmem
    rw [maxLoop_cons_eq heval]
    by_cases himp : maxEval < wc
    · -- strict improvement: the running maximum and best move move to `c`
      simp only [if_pos himp]
      have hub1 : wc ≤ max A V := by clear * - hwub halpha hub hca; omega
      by_cases hcut : beta ≤ max alpha wc
      · -- beta cutoff fires; the loop stops with best move `c`
        rw [if_pos hcut]
        refine ⟨wc, (elem, celem c) :: mpc, c, rfl, le_of_lt himp, hub1,
          by clear * - hcut hacut; omega, ?_, hcmem, ?_, ?_⟩
        · simp [lookupc]
        · intro p hp
          rcases List.mem_cons.mp hp with rfl | hp2
          · exact Or.inr (hmape c hcmem)
          · exact hcachec p hp2
        · intro hAV hVb
          exfalso
          clear * - hcut hacut hub1 hAV hVb
          omega
      · -- no cutoff: continue with the tail
        rw [if_neg hcut]
        have hsplit1 : cs0 = (pre ++ [c]) ++ rest := by
          rw [hsplit]
          simp
        have halpha1 : max alpha wc = max A wc := by clear * - halpha himp; omega
        have hrec := ih (pre ++ [c]) (max alpha wc) wc (some c) mpc hsplit1
          halpha1 (by clear * - hcut; omega) (by clear * - himp hmelo; omega)
          (by intro h; cases h)
          ?_ ?_ hub1 ?_ (by intro h; simp at h)
        · rcases hrec with ⟨w, mp1, b, hrun, hw1, hw2, hw3, hlook, hbcs0, hcache1, hexact⟩
          refine ⟨w, mp1, b, hrun, by clear * - himp hw1; omega, hw2, hw3, hlook, hbcs0,
            ?_, hexact⟩
          intro p hp
          rcases hcache1 p hp with hp2 | hp2
          · exact hcachec p hp2
          · exact Or.inr hp2
        · -- best-move invariant for `some c`
          intro b hbeq
          cases hbeq
          refine ⟨⟨pre, [], rfl, ?_⟩, by clear * - hwub halpha himp; omega, hwlb⟩
          intro c2 hc2
          have h2 := hpre c2 hc2
          clear * - h2 himp
          omega
        · -- prefix invariant
          intro c2 hc2
          rcases List.mem_append.mp hc2 with h2 | h2
          · have h3 := hpre c2 h2
            clear * - h3 himp
            omega
          · simp at h2
            subst h2
            clear * - hwlb
            omega
        · -- lower-witness invariant
          rcases hVlow with h | ⟨c2, hc2, hVc2⟩
          · exact Or.inl (by clear * - h himp; omega)
          · rcases List.mem_cons.mp hc2 with rfl | h2
            · exact Or.inl (by clear * - hVc2 hca hwlb; omega)
            · exact Or.inr ⟨c2, h2, hVc2⟩
    · -- no improvement: accumulator unchanged, and no cutoff can fire
      simp only [if_neg himp]
      have hnocut : ¬ beta ≤ max alpha maxEval := by clear * - halpha hacut; omega
      rw [if_neg hnocut]
      have hbne : best ≠ none := by
        intro hb0
        rcases hbnone hb0 with ⟨hme, _⟩
        have hbb : -score < beta := by clear * - hA hAb; omega
        clear * - hme himp hwlb hcr hbb
        omega
      have hsplit1 : cs0 = (pre ++ [c]) ++ rest := by
        rw [hsplit]
        simp
      have hrec := ih (pre ++ [c]) (max alpha maxEval) maxEval best mpc hsplit1
        (by clear * - halpha; omega) (by clear * - hnocut; omega) hmelo
        (by intro h; exact absurd h hbne)
        ?_ ?_ hub ?_ (by intro h; simp at h)
      · rcases hrec with ⟨w, mp1, b, hrun, hw1, hw2, hw3, hlook, hbcs0, hcache1, hexact⟩
        refine ⟨w, mp1, b, hrun, hw1, hw2, hw3, hlook, hbcs0, ?_, hexact⟩
        intro p hp
        rcases hcache1 p hp with hp2 | hp2
        · exact hcachec p hp2
        · exact Or.inr hp2
      · -- best-move invariant carries over, with `c` appended to the suffix
        intro b hbeq
        rcases hbsome b hbeq with ⟨⟨pb, sb, hpredec, hpb⟩, hbub, hblb⟩
        refine ⟨⟨pb, sb ++ [c], by rw [hpredec]; simp, hpb⟩, hbub, hblb⟩
      · -- prefix invariant
        intro c2 hc2
        rcases List.mem_append.mp hc2 with h2 | h2
        · exact hpre c2 h2
        · simp at h2
          subst h2
          omega
      · -- lower-witness invariant
        rcases hVlow with h | ⟨c2, hc2, hVc2⟩
        · exact Or.inl h
        · rcases List.mem_cons.mp hc2 with rfl | h2
          · exact Or.inl (by omega)
          · exact Or.inr ⟨c2, h2, hVc2⟩

/-- Invariant lemma for the minimizing child loop, the order-dual of
`maxLoop_spec`.  `B` is the beta value the node was entered with; the
moving bound is now beta. -/
theorem minLoop_spec {γ : Type} (a : Adapter T)
    (evalChild : Int → Int → γ → List (T × T) → Res T)
    (celem : γ → T) (vc : γ → Int) (elem : T) (alpha B : Int) (cs0 : List γ) (V : Int)
    (hal : -score ≤ alpha) (hAb : alpha < B) (hB : B ≤ score)
    (hrange : ∀ c ∈ cs0, -score < vc c ∧ vc c < score)
    (hattain : ∀ c ∈ cs0, V ≤ vc c)
    (hev : ∀ c ∈ cs0, ∀ be mp0, be ≤ score → alpha < be →
      ∃ w mp1, evalChild alpha be c mp0 = .ok w mp1 ∧
        w ≤ max alpha (vc c) ∧ min be (vc c) ≤ w ∧
        (∀ p ∈ mp1, p ∈ mp0 ∨ p.2 ∈ a.successors p.1))
    (hmape : ∀ c ∈ cs0, celem c ∈ a.successors elem) :
    ∀ (cs pre : List γ) (beta minEval : Int) (best : Option γ) (mp : List (T × T)),
      cs0 = pre ++ cs →
      beta = min B minEval →
      alpha < beta →
      minEval ≤ score →
      (best = none → minEval = score ∧ pre = []) →
      (∀ b, best = some b →
        (∃ pb sb, pre = pb ++ b :: sb ∧ ∀ c ∈ pb, minEval < max alpha (vc c)) ∧
        min B (vc b) ≤ minEval ∧ minEval ≤ max alpha (vc b)) →
      (∀ c ∈ pre, minEval ≤ max alpha (vc c)) →
      min B V ≤ minEval →
      (minEval ≤ max alpha V ∨ ∃ c ∈ cs, vc c ≤ V) →
      (pre = [] → cs ≠ []) →
      ∃ w mp1 b,
        minLoop evalChild celem elem cs alpha beta minEval best mp = .ok w mp1 ∧
        w ≤ minEval ∧ min B V ≤ w ∧ w ≤ max alpha V ∧
        lookupc mp1 elem = some (celem b) ∧ b ∈ cs0 ∧
        (∀ p ∈ mp1, p ∈ mp ∨ p.2 ∈ a.successors p.1) ∧
        (alpha < V → V < B →
          w = V ∧ vc b = V ∧
          ∃ p2 s2, cs0 = p2 ++ b :: s2 ∧ ∀ c ∈ p2, V < vc c) := by
  intro cs
  induction cs with
  | nil =>
    intro pre beta minEval best mp hsplit hbeta hacut hmehi hbnone hbsome hpre hub hVlow hne
    rcases best with _ | b
    · rcases hbnone rfl with ⟨_, hpre0⟩
      exact absurd rfl (hne hpre0)
    · rcases hbsome b rfl with ⟨⟨pb, sb, hpredec, hpb⟩, hblb, hbub⟩
      have hhigh : minEval ≤ max alpha V := by
        rcases hVlow with h | ⟨c, hc, _⟩
        · exact h
        · cases hc
      have hbmem : b ∈ cs0 := by
        rw [hsplit, hpredec]
        simp
      refine ⟨minEval, (elem, celem b) :: mp, b, rfl, le_refl _, hub, hhigh, ?_, hbmem, ?_, ?_⟩
      · simp [lookupc]
      · intro p hp
        rcases List.mem_cons.mp hp with rfl | hp2
        · exact Or.inr (hmape b hbmem)
        · exact Or.inl hp2
      · intro hAV hVb
        have hw : minEval = V := by clear * - hub hhigh hAV hVb; omega
        have hvb : vc b = V := by
          have h1 := hattain b hbmem
          clear * - hblb h1 hw hVb
          omega
        refine ⟨hw, hvb, pb, sb, by rw [hsplit, hpredec]; simp, ?_⟩
        intro c hc
        have h2 := hpb c hc
        clear * - h2 hw hAV
        omega
  | cons c rest ih =>
    intro pre beta minEval best mp hsplit hbeta hacut hmehi hbnone hbsome hpre hub hVlow hne
    have hcmem : c ∈ cs0 := by
      rw [hsplit]
      exact List.mem_append_right _ (List.mem_cons_self _ _)
    have hbehi : beta ≤ score := by clear * - hbeta hmehi hB; omega
    rcases hev c hcmem beta mp hbehi hacut with ⟨wc, mpc, heval, hwub, hwlb, hcachec⟩
    have hcr := hrange c hcmem
    have hca := hattain c hcmem
    rw [minLoop_cons_eq heval]
    by_cases himp : wc < minEval
    · -- strict decrease: the running minimum and best move move to `c`
      simp only [if_pos himp]
      have hlb1 : min B V ≤ wc := by clear * - hwlb hbeta hub hca; omega
      by_cases hcut : min beta wc ≤ alpha
      · -- alpha cutoff fires; the loop stops with best move `c`
        rw [if_pos hcut]
        refine ⟨wc, (elem, celem c) :: mpc, c, rfl, le_of_lt himp, hlb1,
          by clear * - hcut hacut; omega, ?_, hcmem, ?_, ?_⟩
        · simp [lookupc]
        · intro p hp
          rcases List.mem_cons.mp hp with rfl | hp2
          · exact Or.inr (hmape c hcmem)
          · exact hcachec p hp2
        · intro hAV hVb
          exfalso
          clear * - hcut hacut hlb1 hAV hVb
          omega
      · -- no cutoff: continue with the tail
        rw [if_neg hcut]
        have hsplit1 : cs0 = (pre ++ [c]) ++ rest := by
          rw [hsplit]
          simp
        have hbeta1 : min beta wc = min B wc := by clear * - hbeta himp; omega
        have hrec := ih (pre ++ [c]) (min beta wc) wc (some c) mpc hsplit1
          hbeta1 (by clear * - hcut; omega) (by clear * - himp hmehi; omega)
          (by intro h; cases h)
          ?_ ?_ hlb1 ?_ (by intro h; simp at h)
        · rcases hrec with ⟨w, mp1, b, hrun, hw1, hw2, hw3, hlook, hbcs0, hcache1, hexact⟩
          refine ⟨w, mp1, b, hrun, by clear * - himp hw1; omega, hw2, hw3, hlook, hbcs0,
            ?_, hexact⟩
          intro p hp
          rcases hcache1 p hp with hp2 | hp2
          · exact hcachec p hp2
          · exact Or.inr hp2
        · -- best-move invariant for `some c`
          intro b hbeq
          cases hbeq
          refine ⟨⟨pre, [], rfl, ?_⟩, by clear * - hwlb hbeta himp; omega, hwub⟩
          intro c2 hc2
          have h2 := hpre c2 hc2
          clear * - h2 himp
          omega
        · -- prefix invariant
          intro c2 hc2
          rcases List.mem_append.mp hc2 with h2 | h2
          · have h3 := hpre c2 h2
            clear * - h3 himp
            omega
          · simp at h2
            subst h2
            clear * - hwub
            omega
        · -- upper-witness invariant
          rcases hVlow with h | ⟨c2, hc2, hVc2⟩
          · exact Or.inl (by clear * - h himp; omega)
          · rcases List.mem_cons.mp hc2 with rfl | h2
            · exact Or.inl (by clear * - hVc2 hca hwub; omega)
            · exact Or.inr ⟨c2, h2, hVc2⟩
    · -- no decrease: accumulator unchanged, and no cutoff can fire
      simp only [if_neg himp]
      have hnocut : ¬ min beta minEval ≤ alpha := by clear * - hbeta hacut; omega
      rw [if_neg hnocut]
      have hbne : best ≠ none := by
        intro hb0
        rcases hbnone hb0 with ⟨hme, _⟩
        have haa : alpha < score := by clear * - hAb hB; omega
        clear * - hme himp hwub hcr haa
        omega
      have hsplit1 : cs0 = (pre ++ [c]) ++ rest := by
        rw [hsplit]
        simp
      have hrec := ih (pre ++ [c]) (min beta minEval) minEval best mpc hsplit1
        (by clear * - hbeta; omega) (by clear * - hnocut; omega) hmehi
        (by intro h; exact absurd h hbne)
        ?_ ?_ hub ?_ (by intro h; simp at h)
      · rcases hrec with ⟨w, mp1, b, hrun, hw1, hw2, hw3, hlook, hbcs0, hcache1, hexact⟩
        refine ⟨w, mp1, b, hrun, hw1, hw2, hw3, hlook, hbcs0, ?_, hexact⟩
        intro p hp
        rcases hcache1 p hp with hp2 | hp2
        · exact hcachec p hp2
        · exact Or.inr hp2
      · -- best-move invariant carries over, with `c` appended to the suffix
        intro b hbeq
        rcases hbsome b hbeq with ⟨⟨pb, sb, hpredec, hpb⟩, hblb, hbub⟩
        refine ⟨⟨pb, sb ++ [c], by rw [hpredec]; simp, hpb⟩, hblb, hbub⟩
      · -- prefix invariant
        intro c2 hc2
        rcases List.mem_append.mp hc2 with h2 | h2
        · exact hpre c2 h2
        · simp at h2
          subst h2
          clear * - himp hwub
          omega
      · -- upper-witness invariant
        rcases hVlow with h | ⟨c2, hc2, hVc2⟩
        · exact Or.inl h
        · rcases List.mem_cons.mp hc2 with rfl | h2
          · exact Or.inl (by clear * - hVc2 hca hwub himp; omega)
          · exact Or.inr ⟨c2, h2, hVc2⟩

/-- Main specification of the lazy evaluator against the reference value:
fail-hard window bounds on the returned value, well-formed cache growth,
and — when the reference value lies strictly inside the window — exactness
of the value and optimality plus first-attainment of the recorded move. -/
theorem lazy_minimax_spec {a : Adapter T} (hu : UtilOK a) :
    ∀ (fuel : Nat) (s : T) (d : Nat) (m : Bool) (alpha beta v : Int) (mp : List (T × T)),
      mm a fuel s d m = some v →
      DepthOK a s d →
      -score ≤ alpha → alpha < beta → beta ≤ score →
      ∃ w mp1, Lazy.minimax a fuel alpha beta s d m mp = .ok w mp1 ∧
        w ≤ max alpha v ∧ min beta v ≤ w ∧
        (∀ p ∈ mp1, p ∈ mp ∨ p.2 ∈ a.successors p.1) ∧
        (a.isTerminal s = false → a.successors s ≠ [] →
          ∃ b, lookupc mp1 s = some b ∧ b ∈ a.successors s ∧
            (alpha < v → v < beta →
              mm a fuel b (d + 1) (!m) = some v ∧
              ∃ p2 s2, a.successors s = p2 ++ b :: s2 ∧
                ∀ c ∈ p2, ∀ vcv, mm a fuel c (d + 1) (!m) = some vcv →
                  (if m then vcv < v else v < vcv))) := by
  intro fuel
  induction fuel with
  | zero => intro s d m alpha beta v mp hmm; cases hmm
  | succ fuel ih =>
    intro s d m alpha beta v mp hmm hd halo hab hbhi
    rcases ht : a.isTerminal s with _ | _
    · rcases hs : a.successors s with _ | ⟨c0, cs⟩
      · -- childless non-terminal: raw utility, no cache write
        rw [mm_childless ht hs] at hmm
        cases hmm
        refine ⟨a.utility s, mp, ?_, le_max_right _ _, min_le_right _ _,
          fun p hp => Or.inl hp, ?_⟩
        · rw [Lazy.minimax, ht, hs]
          rfl
        · intro _ hne
          exact absurd rfl hne
      · -- interior node
        rcases mm_interior ht hs hmm with ⟨v0, vs, h0, h1, hv⟩
        have hdch : ∀ c ∈ c0 :: cs, DepthOK a c (d + 1) := by
          intro c hc
          exact hd.child ht (hs ▸ hc)
        have hvc : ∀ c ∈ c0 :: cs, mm a fuel c (d + 1) (!m) = some ((mm a fuel c (d + 1) (!m)).getD 0) := by
          intro c hc
          rcases List.mem_cons.mp hc with rfl | hc2
          · rw [h0]; rfl
          · rcases evalList_mem h1 c hc2 with ⟨vcv, heq, _⟩
            rw [heq]; rfl
        have hvc0 : (mm a fuel c0 (d + 1) (!m)).getD 0 = v0 := by rw [h0]; rfl
        have hmapvs : vs = cs.map (fun c => (mm a fuel c (d + 1) (!m)).getD 0) := by
          refine evalList_map h1 ?_
          intro c hc
          exact hvc c (List.mem_cons_of_mem _ hc)
        have hrange2 : ∀ c ∈ c0 :: cs, -score < (mm a fuel c (d + 1) (!m)).getD 0 ∧
            (mm a fuel c (d + 1) (!m)).getD 0 < score := by
          intro c hc
          exact mm_range hu (hvc c hc) (hdch c hc) (Nat.succ_pos d)
        have hmape2 : ∀ c ∈ c0 :: cs, id c ∈ a.successors s := by
          intro c hc
          rw [hs]; exact hc
        rcases m with _ | _
        · -- minimizing node
          simp only [Bool.false_eq_true, if_false] at hv
          subst hv
          have hattain2 : ∀ c ∈ c0 :: cs,
              vs.foldl min v0 ≤ (mm a fuel c (d + 1) (!false)).getD 0 := by
            intro c hc
            rcases List.mem_cons.mp hc with rfl | hc2
            · rw [hvc0]; exact foldl_min_le_init _ _
            · refine foldl_min_le_mem _ ?_
              rw [hmapvs]
              exact List.mem_map_of_mem _ hc2
          have hev2 : ∀ c ∈ c0 :: cs, ∀ be mp0, be ≤ score → alpha < be →
              ∃ w mp1, (fun al be child mp2 => Lazy.minimax a fuel al be child (d + 1) true mp2) alpha be c mp0 = .ok w mp1 ∧
                w ≤ max alpha ((mm a fuel c (d + 1) (!false)).getD 0) ∧
                min be ((mm a fuel c (d + 1) (!false)).getD 0) ≤ w ∧
                (∀ p ∈ mp1, p ∈ mp0 ∨ p.2 ∈ a.successors p.1) := by
          -- placeholder
            intro c hc be mp0 hbe2 habe
            rcases ih c (d + 1) true alpha be ((mm a fuel c (d + 1) (!false)).getD 0) mp0
              (hvc c hc) (hdch c hc) halo habe hbe2 with ⟨w, mp1, hrun, hub2, hlb2, hcach2, _⟩
            exact ⟨w, mp1, hrun, hub2, hlb2, hcach2⟩
          have hVlow2 : score ≤ max alpha (vs.foldl min v0) ∨
              ∃ c ∈ c0 :: cs, (mm a fuel c (d + 1) (!false)).getD 0 ≤ vs.foldl min v0 := by
            right
            rcases foldl_min_attained vs v0 with he | he
            · exact ⟨c0, List.mem_cons_self _ _, by rw [hvc0, he]⟩
            · have : vs.foldl min v0 ∈ cs.map (fun c => (mm a fuel c (d + 1) (!false)).getD 0) := by
                rw [← hmapvs]; exact he
              rcases List.mem_map.mp this with ⟨c, hc, hceq⟩
              exact ⟨c, List.mem_cons_of_mem _ hc, le_of_eq hceq⟩
          have hloop := minLoop_spec a
            (fun al be child mp2 => Lazy.minimax a fuel al be child (d + 1) true mp2)
            id (fun c => (mm a fuel c (d + 1) (!false)).getD 0) s alpha beta (c0 :: cs)
            (vs.foldl min v0) halo hab hbhi hrange2 hattain2 hev2 hmape2
            (c0 :: cs) [] beta score none mp rfl (by clear * - hbhi; omega) hab
            (le_refl _) (fun _ => ⟨rfl, rfl⟩) (fun b hb => by cases hb)
            (fun c hc => absurd hc (List.not_mem_nil _))
            (by clear * - hbhi; omega) hVlow2 (fun _ => List.cons_ne_nil _ _)
          rcases hloop with ⟨w, mp1, b, hrun, hw1, hw2, hw3, hlook, hbcs0, hcache, hexact⟩
          refine ⟨w, mp1, ?_, ?_, ?_, hcache, ?_⟩
          · rw [Lazy.minimax, ht, hs]
            simp only [Bool.false_eq_true, if_false]
            exact hrun
          · exact hw3
          · exact hw2
          · intro _ _
            refine ⟨b, hlook, hbcs0, ?_⟩
            intro hav hvb
            rcases hexact hav hvb with ⟨hwv, hvcb, p2, s2, hdec, hp2⟩
            refine ⟨?_, p2, s2, hdec, ?_⟩
            · exact mm_mono_succ ((hvc b hbcs0).trans (congrArg some hvcb))
            · intro c hc vcv hcv
              have hc0 : c ∈ c0 :: cs := by
                rw [hdec]
                exact List.mem_append_left _ hc
              have h5 := mm_mono_succ (hvc c hc0)
              rw [h5] at hcv
              cases hcv
              simp only [Bool.false_eq_true, if_false]
              exact hp2 c hc
        · -- maximizing node
          simp only [if_true] at hv
          subst hv
          have hattain2 : ∀ c ∈ c0 :: cs,
              (mm a fuel c (d + 1) (!true)).getD 0 ≤ vs.foldl max v0 := by
            intro c hc
            rcases List.mem_cons.mp hc with rfl | hc2
            · rw [hvc0]; exact foldl_max_init_le _ _
            · refine foldl_max_mem_le _ ?_
              rw [hmapvs]
              exact List.mem_map_of_mem _ hc2
          have hev2 : ∀ c ∈ c0 :: cs, ∀ al mp0, -score ≤ al → al < beta →
              ∃ w mp1, (fun al be child mp2 => Lazy.minimax a fuel al be child (d + 1) false mp2) al beta c mp0 = .ok w mp1 ∧
                w ≤ max al ((mm a fuel c (d + 1) (!true)).getD 0) ∧
                min beta ((mm a fuel c (d + 1) (!true)).getD 0) ≤ w ∧
                (∀ p ∈ mp1, p ∈ mp0 ∨ p.2 ∈ a.successors p.1) := by
            intro c hc al mp0 hal2 halb
            rcases ih c (d + 1) false al beta ((mm a fuel c (d + 1) (!true)).getD 0) mp0
              (hvc c hc) (hdch c hc) hal2 halb hbhi with ⟨w, mp1, hrun, hub2, hlb2, hcach2, _⟩
            exact ⟨w, mp1, hrun, hub2, hlb2, hcach2⟩
          have hVlow2 : min beta (vs.foldl max v0) ≤ -score ∨
              ∃ c ∈ c0 :: cs, vs.foldl max v0 ≤ (mm a fuel c (d + 1) (!true)).getD 0 := by
            right
            rcases foldl_max_attained vs v0 with he | he
            · exact ⟨c0, List.mem_cons_self _ _, by rw [hvc0, he]⟩
            · have : vs.foldl max v0 ∈ cs.map (fun c => (mm a fuel c (d + 1) (!true)).getD 0) := by
                rw [← hmapvs]; exact he
              rcases List.mem_map.mp this with ⟨c, hc, hceq⟩
              exact ⟨c, List.mem_cons_of_mem _ hc, le_of_eq hceq.symm⟩
          have hloop := maxLoop_spec a
            (fun al be child mp2 => Lazy.minimax a fuel al be child (d + 1) false mp2)
            id (fun c => (mm a fuel c (d + 1) (!true)).getD 0) s alpha beta (c0 :: cs)
            (vs.foldl max v0) halo hab hbhi hrange2 hattain2 hev2 hmape2
            (c0 :: cs) [] alpha (-score) none mp rfl (by clear * - halo; omega) hab
            (le_refl _) (fun _ => ⟨rfl, rfl⟩) (fun b hb => by cases hb)
            (fun c hc => absurd hc (List.not_mem_nil _))
            (by clear * - halo; omega) hVlow2 (fun _ => List.cons_ne_nil _ _)
          rcases hloop with ⟨w, mp1, b, hrun, hw1, hw2, hw3, hlook, hbcs0, hcache, hexact⟩
          refine ⟨w, mp1, ?_, ?_, ?_, hcache, ?_⟩
          · rw [Lazy.minimax, ht, hs]
            simp only [Bool.false_eq_true, if_false, if_true]
            exact hrun
          · exact hw2
          · exact hw3
          · intro _ _
            refine ⟨b, hlook, hbcs0, ?_⟩
            intro hav hvb
            rcases hexact hav hvb with ⟨hwv, hvcb, p2, s2, hdec, hp2⟩
            refine ⟨?_, p2, s2, hdec, ?_⟩
            · exact mm_mono_succ ((hvc b hbcs0).trans (congrArg some hvcb))
            · intro c hc vcv hcv
              have hc0 : c ∈ c0 :: cs := by
                rw [hdec]
                exact List.mem_append_left _ hc
              have h5 := mm_mono_succ (hvc c hc0)
              rw [h5] at hcv
              cases hcv
              simp only [if_true]
              exact hp2 c hc
    · -- terminal node: exact depth-adjusted score, no cache write
      rw [mm_terminal ht] at hmm
      cases hmm
      refine ⟨termScore (a.utility s) d, mp, ?_, le_max_right _ _, min_le_right _ _,
        fun p hp => Or.inl hp, ?_⟩
      · rw [Lazy.minimax, ht]
        rfl
      · intro hnt _
        exact Bool.noConfusion hnt

/-- Propagation of a child panic through the maximizing loop. -/
theorem maxLoop_cons_panic {γ : Type} {evalChild : Int → Int → γ → List (T × T) → Res T}
    {celem : γ → T} {elem : T} {child : γ} {rest : List γ}
    {alpha beta maxEval : Int} {bestMove : Option γ} {mp : List (T × T)}
    (heval : evalChild alpha beta child mp = .panicked) :
    maxLoop evalChild celem elem (child :: rest) alpha beta maxEval bestMove mp = .panicked := by
  simp only [maxLoop, heval]

/-- Propagation of child fuel exhaustion through the maximizing loop. -/
theorem maxLoop_cons_nofuel {γ : Type} {evalChild : Int → Int → γ → List (T × T) → Res T}
    {celem : γ → T} {elem : T} {child : γ} {rest : List γ}
    {alpha beta maxEval : Int} {bestMove : Option γ} {mp : List (T × T)}
    (heval : evalChild alpha beta child mp = .noFuel) :
    maxLoop evalChild celem elem (child :: rest) alpha beta maxEval bestMove mp = .noFuel := by
  simp only [maxLoop, heval]

/-- Propagation of a child panic through the minimizing loop. -/
theorem minLoop_cons_panic {γ : Type} {evalChild : Int → Int → γ → List (T × T) → Res T}
    {celem : γ → T} {elem : T} {child : γ} {rest : List γ}
    {alpha beta minEval : Int} {bestMove : Option γ} {mp : List (T × T)}
    (heval : evalChild alpha beta child mp = .panicked) :
    minLoop evalChild celem elem (child :: rest) alpha beta minEval bestMove mp = .panicked := by
  simp only [minLoop, heval]

/-- Propagation of child fuel exhaustion through the minimizing loop. -/
theorem minLoop_cons_nofuel {γ : Type} {evalChild : Int → Int → γ → List (T × T) → Res T}
    {celem : γ → T} {elem : T} {child : γ} {rest : List γ}
    {alpha beta minEval : Int} {bestMove : Option γ} {mp : List (T × T)}
    (heval : evalChild alpha beta child mp = .noFuel) :
    minLoop evalChild celem elem (child :: rest) alpha beta minEval bestMove mp = .noFuel := by
  simp only [minLoop, heval]

/-- Unconditional soundness of cache writes made by the maximizing loop:
every entry of the output cache is an old entry or maps a state to one of
its successors. -/
theorem maxLoop_cache_sound {γ : Type} {a : Adapter T}
    {evalChild : Int → Int → γ → List (T × T) → Res T} {celem : γ → T} {elem : T} :
    ∀ (cs : List γ) (alpha beta maxEval : Int) (best : Option γ) (mp : List (T × T))
      (w : Int) (mp1 : List (T × T)),
      (∀ c ∈ cs, ∀ al be mp0 w2 mp2, evalChild al be c mp0 = .ok w2 mp2 →
        ∀ p ∈ mp2, p ∈ mp0 ∨ p.2 ∈ a.successors p.1) →
      (∀ c ∈ cs, celem c ∈ a.successors elem) →
      (∀ b, best = some b → celem b ∈ a.successors elem) →
      maxLoop evalChild celem elem cs alpha beta maxEval best mp = .ok w mp1 →
      ∀ p ∈ mp1, p ∈ mp ∨ p.2 ∈ a.successors p.1 := by
  intro cs
  induction cs with
  | nil =>
    intro alpha beta maxEval best mp w mp1 hev hmape hbest hrun p hp
    rcases best with _ | b
    · cases hrun
    · simp only [maxLoop] at hrun
      cases hrun
      rcases List.mem_cons.mp hp with rfl | hp2
      · exact Or.inr (hbest b rfl)
      · exact Or.inl hp2
  | cons c rest ih =>
    intro alpha beta maxEval best mp w mp1 hev hmape hbest hrun p hp
    cases heval : evalChild alpha beta c mp with
    | panicked =>
      rw [maxLoop_cons_panic heval] at hrun
      cases hrun
    | noFuel =>
      rw [maxLoop_cons_nofuel heval] at hrun
      cases hrun
    | ok wc mpc =>
        rw [maxLoop_cons_eq heval] at hrun
        have hstep : ∀ q ∈ mpc, q ∈ mp ∨ q.2 ∈ a.successors q.1 :=
          fun q hq => hev c (List.mem_cons_self _ _) alpha beta mp wc mpc heval q hq
        by_cases hcut : beta ≤ max alpha (if maxEval < wc then wc else maxEval)
        · rw [if_pos hcut] at hrun
          rcases hb1 : (if maxEval < wc then some c else best) with _ | b
          · rw [hb1] at hrun
            cases hrun
          · rw [hb1] at hrun
            cases hrun
            rcases List.mem_cons.mp hp with rfl | hp2
            · right
              rcases ite_eq_iff.mp hb1 with ⟨_, hbc⟩ | ⟨_, hbc⟩
              · cases hbc
                exact hmape c (List.mem_cons_self _ _)
              · exact hbest b hbc
            · exact hstep p hp2
        · rw [if_neg hcut] at hrun
          have hres := ih (max alpha (if maxEval < wc then wc else maxEval)) beta
            (if maxEval < wc then wc else maxEval)
            (if maxEval < wc then some c else best) mpc w mp1
            (fun c2 hc2 => hev c2 (List.mem_cons_of_mem _ hc2))
            (fun c2 hc2 => hmape c2 (List.mem_cons_of_mem _ hc2))
            ?_ hrun p hp
          · rcases hres with h2 | h2
            · exact hstep p h2
            · exact Or.inr h2
          · intro b hb1
            rcases ite_eq_iff.mp hb1 with ⟨_, hbc⟩ | ⟨_, hbc⟩
            · cases hbc
              exact hmape c (List.mem_cons_self _ _)
            · exact hbest b hbc

/-- Unconditional soundness of cache writes made by the minimizing loop. -/
theorem minLoop_cache_sound {γ : Type} {a : Adapter T}
    {evalChild : Int → Int → γ → List (T × T) → Res T} {celem : γ → T} {elem : T} :
    ∀ (cs : List γ) (alpha beta minEval : Int) (best : Option γ) (mp : List (T × T))
      (w : Int) (mp1 : List (T × T)),
      (∀ c ∈ cs, ∀ al be mp0 w2 mp2, evalChild al be c mp0 = .ok w2 mp2 →
        ∀ p ∈ mp2, p ∈ mp0 ∨ p.2 ∈ a.successors p.1) →
      (∀ c ∈ cs, celem c ∈ a.successors elem) →
      (∀ b, best = some b → celem b ∈ a.successors elem) →
      minLoop evalChild celem elem cs alpha beta minEval best mp = .ok w mp1 →
      ∀ p ∈ mp1, p ∈ mp ∨ p.2 ∈ a.successors p.1 := by
  intro cs
  induction cs with
  | nil =>
    intro alpha beta minEval best mp w mp1 hev hmape hbest hrun p hp
    rcases best with _ | b
    · cases hrun
    · simp only [minLoop] at hrun
      cases hrun
      rcases List.mem_cons.mp hp with rfl | hp2
      · exact Or.inr (hbest b rfl)
      · exact Or.inl hp2
  | cons c rest ih =>
    intro alpha beta minEval best mp w mp1 hev hmape hbest hrun p hp
    cases heval : evalChild alpha beta c mp with
    | panicked =>
      rw [minLoop_cons_panic heval] at hrun
      cases hrun
    | noFuel =>
      rw [minLoop_cons_nofuel heval] at hrun
      cases hrun
    | ok wc mpc =>
        rw [minLoop_cons_eq heval] at hrun
        have hstep : ∀ q ∈ mpc, q ∈ mp ∨ q.2 ∈ a.successors q.1 :=
          fun q hq => hev c (List.mem_cons_self _ _) alpha beta mp wc mpc heval q hq
        by_cases hcut : min beta (if wc < minEval then wc else minEval) ≤ alpha
        · rw [if_pos hcut] at hrun
          rcases hb1 : (if wc < minEval then some c else best) with _ | b
          · rw [hb1] at hrun
            cases hrun
          · rw [hb1] at hrun
            cases hrun
            rcases List.mem_cons.mp hp with rfl | hp2
            · right
              rcases ite_eq_iff.mp hb1 with ⟨_, hbc⟩ | ⟨_, hbc⟩
              · cases hbc
                exact hmape c (List.mem_cons_self _ _)
              · exact hbest b hbc
            · exact hstep p hp2
        · rw [if_neg hcut] at hrun
          have hres := ih alpha (min beta (if wc < minEval then wc else minEval))
            (if wc < minEval then wc else minEval)
            (if wc < minEval then some c else best) mpc w mp1
            (fun c2 hc2 => hev c2 (List.mem_cons_of_mem _ hc2))
            (fun c2 hc2 => hmape c2 (List.mem_cons_of_mem _ hc2))
            ?_ hrun p hp
          · rcases hres with h2 | h2
            · exact hstep p h2
            · exact Or.inr h2
          · intro b hb1
            rcases ite_eq_iff.mp hb1 with ⟨_, hbc⟩ | ⟨_, hbc⟩
            · cases hbc
              exact hmape c (List.mem_cons_self _ _)
            · exact hbest b hbc

/-- Every cache entry produced by an ok run of the lazy evaluator is an old
entry or maps a state to one of its successors, with no assumptions about
the game. -/
theorem lazy_minimax_cache_sound {a : Adapter T} :
    ∀ (fuel : Nat) (alpha beta : Int) (s : T) (d : Nat) (m : Bool)
      (mp : List (T × T)) (w : Int) (mp1 : List (T × T)),
      Lazy.minimax a fuel alpha beta s d m mp = .ok w mp1 →
      ∀ p ∈ mp1, p ∈ mp ∨ p.2 ∈ a.successors p.1 := by
  intro fuel
  induction fuel with
  | zero => intro alpha beta s d m mp w mp1 hrun; cases hrun
  | succ fuel ih =>
    intro alpha beta s d m mp w mp1 hrun p hp
    rw [Lazy.minimax] at hrun
    rcases ht : a.isTerminal s with _ | _
    · rw [ht] at hrun
      simp only [Bool.false_eq_true, if_false] at hrun
      rcases hs : a.successors s with _ | ⟨c0, cs⟩
      · rw [hs] at hrun
        cases hrun
        exact Or.inl hp
      · rw [hs] at hrun
        rcases m with _ | _
        · simp only [Bool.false_eq_true, if_false] at hrun
          refine minLoop_cache_sound (c0 :: cs) alpha beta score none mp w mp1
            ?_ ?_ (fun b hb => by cases hb) hrun p hp
          · intro c hc al be mp0 w2 mp2 hrun2 q hq
            exact ih al be c (d + 1) true mp0 w2 mp2 hrun2 q hq
          · intro c hc
            rw [hs]
            exact hc
        · simp only [if_true] at hrun
          refine maxLoop_cache_sound (c0 :: cs) alpha beta (-score) none mp w mp1
            ?_ ?_ (fun b hb => by cases hb) hrun p hp
          · intro c hc al be mp0 w2 mp2 hrun2 q hq
            exact ih al be c (d + 1) false mp0 w2 mp2 hrun2 q hq
          · intro c hc
            rw [hs]
            exact hc
    · rw [ht] at hrun
      simp only [if_true] at hrun
      cases hrun
      exact Or.inl hp

/-- The reference value of a non-terminal root lies strictly inside the
scoring window (the root itself may be at depth 0). -/
theorem mm_root_range {a : Adapter T} (hu : UtilOK a) {fuel : Nat} {s : T} {d : Nat}
    {m : Bool} {v : Int} (hmm : mm a fuel s d m = some v) (hd : DepthOK a s d)
    (ht : a.isTerminal s = false) : -score < v ∧ v < score := by
  rcases fuel with _ | fuel
  · cases hmm
  rcases hs : a.successors s with _ | ⟨c0, cs⟩
  · rw [mm_childless ht hs] at hmm
    cases hmm
    exact hu s
  · rcases mm_interior ht hs hmm with ⟨v0, vs, h0, h1, hv⟩
    have hc0 : c0 ∈ a.successors s := by rw [hs]; exact List.mem_cons_self _ _
    have hr0 := mm_range hu h0 (hd.child ht hc0) (Nat.succ_pos d)
    have hrs : ∀ x ∈ vs, -score < x ∧ x < score := by
      intro x hx
      rcases evalList_mem_rev h1 x hx with ⟨c, hc, hfc⟩
      have hcm : c ∈ a.successors s := by
        rw [hs]; exact List.mem_cons_of_mem _ hc
      exact mm_range hu hfc (hd.child ht hcm) (Nat.succ_pos d)
    rcases m with _ | _
    · simp only [Bool.false_eq_true, if_false] at hv
      subst hv
      rcases foldl_min_attained vs v0 with he | he
      · rw [he]; exact hr0
      · exact hrs _ he
    · simp only [if_true] at hv
      subst hv
      rcases foldl_max_attained vs v0 with he | he
      · rw [he]; exact hr0
      · exact hrs _ he

/-! Destructors for the eager tree builder. -/

theorem buildList_mem {f : T → Option (Eager.node T)} :
    ∀ {cs : List T} {ns : List (Eager.node T)}, Eager.buildList f cs = some ns →
      ∀ c ∈ cs, ∃ n, f c = some n ∧ n ∈ ns := by
  intro cs
  induction cs with
  | nil => intro ns _ c hc; cases hc
  | cons c0 cs ih =>
    intro ns h c hc
    rcases h0 : f c0 with _ | n0
    · rw [Eager.buildList, h0] at h; cases h
    · rw [Eager.buildList, h0] at h
      rcases h1 : Eager.buildList f cs with _ | ns0
      · rw [h1] at h; cases h
      · rw [h1] at h
        simp only [Option.bind_eq_bind, Option.some_bind, Option.some.injEq] at h
        subst h
        rcases List.mem_cons.mp hc with hc0 | hc1
        · exact ⟨n0, hc0 ▸ h0, List.mem_cons_self _ _⟩
        · rcases ih h1 c hc1 with ⟨n, hn, hnm⟩
          exact ⟨n, hn, List.mem_cons_of_mem _ hnm⟩

theorem buildList_mem_rev {f : T → Option (Eager.node T)} :
    ∀ {cs : List T} {ns : List (Eager.node T)}, Eager.buildList f cs = some ns →
      ∀ n ∈ ns, ∃ c ∈ cs, f c = some n := by
  intro cs
  induction cs with
  | nil =>
    intro ns h n hn
    simp only [Eager.buildList, Option.some.injEq] at h
    subst h; cases hn
  | cons c0 cs ih =>
    intro ns h n hn
    rcases h0 : f c0 with _ | n0
    · rw [Eager.buildList, h0] at h; cases h
    · rw [Eager.buildList, h0] at h
      rcases h1 : Eager.buildList f cs with _ | ns0
      · rw [h1] at h; cases h
      · rw [h1] at h
        simp only [Option.bind_eq_bind, Option.some_bind, Option.some.injEq] at h
        subst h
        rcases List.mem_cons.mp hn with hn0 | hn1
        · exact ⟨c0, List.mem_cons_self _ _, hn0 ▸ h0⟩
        · rcases ih h1 n hn1 with ⟨c, hc, hfc⟩
          exact ⟨c, List.mem_cons_of_mem _ hc, hfc⟩

theorem buildList_of_pointwise {f : T → Option (Eager.node T)} :
    ∀ {cs : List T}, (∀ c ∈ cs, ∃ n, f c = some n) →
      ∃ ns, Eager.buildList f cs = some ns := by
  intro cs
  induction cs with
  | nil => intro _; exact ⟨[], rfl⟩
  | cons c0 cs ih =>
    intro h
    rcases h c0 (List.mem_cons_self _ _) with ⟨n0, hn0⟩
    rcases ih (fun c hc => h c (List.mem_cons_of_mem _ hc)) with ⟨ns, hns⟩
    exact ⟨n0 :: ns, by simp [Eager.buildList, hn0, hns]⟩

theorem buildList_cons {f : T → Option (Eager.node T)} {c0 : T} {cs : List T}
    {ns : List (Eager.node T)} (h : Eager.buildList f (c0 :: cs) = some ns) :
    ∃ n0 nrest, f c0 = some n0 ∧ Eager.buildList f cs = some nrest ∧ ns = n0 :: nrest := by
  rcases h0 : f c0 with _ | n0
  · rw [Eager.buildList, h0] at h; cases h
  · rw [Eager.buildList, h0] at h
    rcases h1 : Eager.buildList f cs with _ | ns0
    · rw [h1] at h; cases h
    · rw [h1] at h
      simp only [Option.bind_eq_bind, Option.some_bind, Option.some.injEq] at h
      exact ⟨n0, ns0, rfl, rfl, h.symm⟩

theorem buildList_map_elem {f : T → Option (Eager.node T)}
    (helem : ∀ c n, f c = some n → n.elem = c) :
    ∀ {cs : List T} {ns : List (Eager.node T)}, Eager.buildList f cs = some ns →
      ns.map Eager.node.elem = cs := by
  intro cs
  induction cs with
  | nil =>
    intro ns h
    simp only [Eager.buildList, Option.some.injEq] at h
    subst h; rfl
  | cons c0 cs ih =>
    intro ns h
    rcases buildList_cons h with ⟨n0, nrest, h0, h1, hns⟩
    subst hns
    simp only [List.map_cons, ih h1, helem c0 n0 h0]

theorem makeNode_elem {a : Adapter T} {fuel : Nat} {s : T} {d : Nat} {m : Bool}
    {tr : Eager.node T} (h : Eager.makeNode a fuel s d m = some tr) : tr.elem = s := by
  rcases fuel with _ | fuel
  · cases h
  · rw [Eager.makeNode] at h
    rcases h1 : Eager.buildList (fun succ => Eager.makeNode a fuel succ (d + 1) (!m))
        (a.successors s) with _ | ns
    · rw [h1] at h; cases h
    · rw [h1] at h
      simp only [Option.bind_eq_bind, Option.some_bind, Option.some.injEq] at h
      subst h
      rfl

theorem makeNode_succ {a : Adapter T} {fuel : Nat} {s : T} {d : Nat} {m : Bool}
    {tr : Eager.node T} (h : Eager.makeNode a (fuel + 1) s d m = some tr) :
    ∃ ns, Eager.buildList (fun succ => Eager.makeNode a fuel succ (d + 1) (!m))
      (a.successors s) = some ns ∧ tr = Eager.node.mk s d m ns := by
  rw [Eager.makeNode] at h
  rcases h1 : Eager.buildList (fun succ => Eager.makeNode a fuel succ (d + 1) (!m))
      (a.successors s) with _ | ns
  · rw [h1] at h; cases h
  · rw [h1] at h
    simp only [Option.bind_eq_bind, Option.some_bind, Option.some.injEq] at h
    exact ⟨ns, rfl, h.symm⟩

/-- Unfolding of the eager evaluator on a constructed node; note the
window reset at entry and the combined terminal-or-childless test. -/
theorem eager_minimax_mk_eq {a : Adapter T} {fuel : Nat} {alIn beIn : Int} {s : T}
    {d : Nat} {m : Bool} {ns : List (Eager.node T)} {mp : List (T × T)} :
    Eager.minimax a (fuel + 1) alIn beIn (Eager.node.mk s d m ns) mp =
      if a.isTerminal s || ns.isEmpty then .ok (termScore (a.utility s) d) mp
      else if m then
        maxLoop (fun al be child mp2 => Eager.minimax a fuel al be child mp2)
          Eager.node.elem s ns (-score) score (-score) none mp
      else
        minLoop (fun al be child mp2 => Eager.minimax a fuel al be child mp2)
          Eager.node.elem s ns (-score) score score none mp := by
  rfl

/-- Specification of the eager variant: for adapters whose zero-successor
states are exactly the terminal states, building and then evaluating a
root computes the reference value exactly whatever window is passed in
(the evaluator overwrites it at entry), cache writes are sound, and the
recorded move of a non-terminal root is the first child attaining the
reference value. -/
theorem eager_spec {a : Adapter T} (hu : UtilOK a)
    (hterm : ∀ t, a.isTerminal t = true → a.successors t = [])
    (hnc : ∀ t, a.isTerminal t = false → a.successors t ≠ []) :
    ∀ (fuel : Nat) (s : T) (d : Nat) (m : Bool) (v : Int),
      mm a fuel s d m = some v → DepthOK a s d →
      ∃ tr, Eager.makeNode a fuel s d m = some tr ∧
        ∀ (alIn beIn : Int) (mp : List (T × T)),
          ∃ mp1, Eager.minimax a fuel alIn beIn tr mp = .ok v mp1 ∧
            (∀ p ∈ mp1, p ∈ mp ∨ p.2 ∈ a.successors p.1) ∧
            (a.isTerminal s = false →
              ∃ b, lookupc mp1 s = some b ∧ b ∈ a.successors s ∧
                mm a fuel b (d + 1) (!m) = some v ∧
                ∃ p2 s2, a.successors s = p2 ++ b :: s2 ∧
                  ∀ c ∈ p2, ∀ vcv, mm a fuel c (d + 1) (!m) = some vcv →
                    (if m then vcv < v else v < vcv)) := by
  intro fuel
  induction fuel with
  | zero => intro s d m v hmm; cases hmm
  | succ fuel ih =>
    intro s d m v hmm hd
    rcases ht : a.isTerminal s with _ | _
    · -- non-terminal
      rcases hs : a.successors s with _ | ⟨c0, cs⟩
      · exact absurd hs (hnc s ht)
      · rcases mm_interior ht hs hmm with ⟨v0, vs, h0, h1, hv⟩
        have hdch : ∀ c ∈ c0 :: cs, DepthOK a c (d + 1) := by
          intro c hc
          exact hd.child ht (hs ▸ hc)
        have hvc : ∀ c ∈ c0 :: cs, mm a fuel c (d + 1) (!m) = some ((mm a fuel c (d + 1) (!m)).getD 0) := by
          intro c hc
          rcases List.mem_cons.mp hc with rfl | hc2
          · rw [h0]; rfl
          · rcases evalList_mem h1 c hc2 with ⟨vcv, heq, _⟩
            rw [heq]; rfl
        have hvc0 : (mm a fuel c0 (d + 1) (!m)).getD 0 = v0 := by rw [h0]; rfl
        have hmapvs : vs = cs.map (fun c => (mm a fuel c (d + 1) (!m)).getD 0) := by
          refine evalList_map h1 ?_
          intro c hc
          exact hvc c (List.mem_cons_of_mem _ hc)
        have hrangec : ∀ c ∈ c0 :: cs, -score < (mm a fuel c (d + 1) (!m)).getD 0 ∧
            (mm a fuel c (d + 1) (!m)).getD 0 < score := by
          intro c hc
          exact mm_range hu (hvc c hc) (hdch c hc) (Nat.succ_pos d)
        have hibuild : ∀ c ∈ c0 :: cs,
            ∃ tr, Eager.makeNode a fuel c (d + 1) (!m) = some tr ∧
              ∀ (alIn beIn : Int) (mp : List (T × T)),
                ∃ mp1, Eager.minimax a fuel alIn beIn tr mp
                    = .ok ((mm a fuel c (d + 1) (!m)).getD 0) mp1 ∧
                  (∀ p ∈ mp1, p ∈ mp ∨ p.2 ∈ a.successors p.1) ∧ True := by
          intro c hc
          rcases ih c (d + 1) (!m) ((mm a fuel c (d + 1) (!m)).getD 0) (hvc c hc) (hdch c hc)
            with ⟨tr, htr, heval⟩
          refine ⟨tr, htr, ?_⟩
          intro alIn beIn mp
          rcases heval alIn beIn mp with ⟨mp1, hrun, hcach, _⟩
          exact ⟨mp1, hrun, hcach, trivial⟩
        rcases buildList_of_pointwise
            (fun c hc => (hibuild c hc).imp (fun tr h => h.1)) with ⟨ns, hns⟩
        have hnseq := hns
        rw [← hs] at hnseq
        refine ⟨Eager.node.mk s d m ns, by rw [Eager.makeNode, hnseq]; rfl, ?_⟩
        intro alIn beIn mp
        rcases buildList_cons hns with ⟨n0, nrest, hn0, hnrest, hnsdec⟩
        subst hnsdec
        have helemf : ∀ c n, Eager.makeNode a fuel c (d + 1) (!m) = some n → n.elem = c :=
          fun c n h => makeNode_elem h
        have hmapelem : (n0 :: nrest).map Eager.node.elem = c0 :: cs :=
          buildList_map_elem helemf hns
        have hndmem : ∀ nd ∈ n0 :: nrest, nd.elem ∈ c0 :: cs := by
          intro nd hnd
          rw [← hmapelem]
          exact List.mem_map_of_mem _ hnd
        have hndval : ∀ nd ∈ n0 :: nrest,
            mm a fuel nd.elem (d + 1) (!m) = some ((mm a fuel nd.elem (d + 1) (!m)).getD 0) :=
          fun nd hnd => hvc nd.elem (hndmem nd hnd)
        have heval_n : ∀ nd ∈ n0 :: nrest, ∀ (alIn beIn : Int) (mp0 : List (T × T)),
            ∃ mp2, Eager.minimax a fuel alIn beIn nd mp0
                = .ok ((mm a fuel nd.elem (d + 1) (!m)).getD 0) mp2 ∧
              (∀ p ∈ mp2, p ∈ mp0 ∨ p.2 ∈ a.successors p.1) := by
          intro nd hnd alIn2 beIn2 mp0
          rcases buildList_mem_rev hns nd hnd with ⟨c, hc, hfc⟩
          have hce : nd.elem = c := makeNode_elem hfc
          rcases hibuild c hc with ⟨tr, htr, heval⟩
          have htrnd : tr = nd := by
            rw [htr] at hfc
            exact (Option.some.inj hfc)
          subst htrnd
          rcases heval alIn2 beIn2 mp0 with ⟨mp2, hrun, hcach, _⟩
          rw [hce]
          exact ⟨mp2, hrun, hcach⟩
        have hrangen : ∀ nd ∈ n0 :: nrest,
            -score < (mm a fuel nd.elem (d + 1) (!m)).getD 0 ∧
              (mm a fuel nd.elem (d + 1) (!m)).getD 0 < score :=
          fun nd hnd => hrangec nd.elem (hndmem nd hnd)
        have helem0 : n0.elem = c0 := makeNode_elem hn0
        have hmape_n : ∀ nd ∈ n0 :: nrest, nd.elem ∈ a.successors s := by
          intro nd hnd
          rw [hs]
          exact hndmem nd hnd
        rcases m with _ | _
        · -- minimizing node
          simp only [Bool.false_eq_true, if_false] at hv
          subst hv
          have hVr : -score < vs.foldl min v0 ∧ vs.foldl min v0 < score := by
            rcases foldl_min_attained vs v0 with he | he
            · rw [he, ← hvc0]
              exact hrangec c0 (List.mem_cons_self _ _)
            · have hmem : vs.foldl min v0 ∈ cs.map (fun c => (mm a fuel c (d + 1) (!false)).getD 0) := by
                rw [← hmapvs]
                exact he
              rcases List.mem_map.mp hmem with ⟨c, hc, hceq⟩
              rw [← hceq]
              exact hrangec c (List.mem_cons_of_mem _ hc)
          have hattain_n : ∀ nd ∈ n0 :: nrest,
              vs.foldl min v0 ≤ (mm a fuel nd.elem (d + 1) (!false)).getD 0 := by
            intro nd hnd
            rcases List.mem_cons.mp (hndmem nd hnd) with he | he
            · rw [he, hvc0]
              exact foldl_min_le_init _ _
            · refine foldl_min_le_mem _ ?_
              rw [hmapvs]
              exact List.mem_map_of_mem _ he
          have hev_n : ∀ nd ∈ n0 :: nrest, ∀ be mp0, be ≤ score → -score < be →
              ∃ w mp2, (fun al be child mp2 => Eager.minimax a fuel al be child mp2) (-score) be nd mp0 = .ok w mp2 ∧
                w ≤ max (-score) ((mm a fuel nd.elem (d + 1) (!false)).getD 0) ∧
                min be ((mm a fuel nd.elem (d + 1) (!false)).getD 0) ≤ w ∧
                (∀ p ∈ mp2, p ∈ mp0 ∨ p.2 ∈ a.successors p.1) := by
            intro nd hnd be mp0 hbe hbe2
            rcases heval_n nd hnd (-score) be mp0 with ⟨mp2, hrun, hcach⟩
            refine ⟨(mm a fuel nd.elem (d + 1) (!false)).getD 0, mp2, hrun,
              le_max_right _ _, min_le_right _ _, hcach⟩
          have hVlow2 : score ≤ max (-score) (vs.foldl min v0) ∨
              ∃ nd ∈ n0 :: nrest,
                (mm a fuel nd.elem (d + 1) (!false)).getD 0 ≤ vs.foldl min v0 := by
            right
            rcases foldl_min_attained vs v0 with he | he
            · refine ⟨n0, List.mem_cons_self _ _, ?_⟩
              rw [helem0, hvc0, he]
            · have hmem : vs.foldl min v0 ∈ cs.map (fun c => (mm a fuel c (d + 1) (!false)).getD 0) := by
                rw [← hmapvs]
                exact he
              rcases List.mem_map.mp hmem with ⟨c, hc, hceq⟩
              rcases buildList_mem hns c (List.mem_cons_of_mem _ hc) with ⟨n, hn, hnm⟩
              refine ⟨n, hnm, ?_⟩
              rw [makeNode_elem hn, hceq]
          have hloop := minLoop_spec a
            (fun al be child mp2 => Eager.minimax a fuel al be child mp2)
            Eager.node.elem
            (fun nd => (mm a fuel nd.elem (d + 1) (!false)).getD 0) s (-score) score
            (n0 :: nrest) (vs.foldl min v0) (le_refl _) (by decide) (le_refl _)
            hrangen hattain_n hev_n hmape_n
            (n0 :: nrest) [] score score none mp rfl (by clear * -; omega) (by decide)
            (le_refl _) (fun _ => ⟨rfl, rfl⟩) (fun b hb => by cases hb)
            (fun c hc => absurd hc (List.not_mem_nil _))
            (by clear * -; omega) hVlow2 (fun _ => List.cons_ne_nil _ _)
          rcases hloop with ⟨w, mp1, b, hrun, hw1, hw2, hw3, hlook, hbcs0, hcache, hexact⟩
          rcases hexact (by clear * - hVr; omega) (by clear * - hVr; omega)
            with ⟨hweq, hvcb, p2n, s2n, hdecn, hp2n⟩
          refine ⟨mp1, ?_, hcache, ?_⟩
          · rw [eager_minimax_mk_eq, ht]
            rw [← hweq]
            exact hrun
          · intro _
            refine ⟨Eager.node.elem b, hlook, hndmem b hbcs0, ?_, ?_⟩
            · rw [← hvcb]
              exact mm_mono_succ (hndval b hbcs0)
            · refine ⟨p2n.map Eager.node.elem, s2n.map Eager.node.elem, ?_, ?_⟩
              · rw [← hmapelem, hdecn, List.map_append, List.map_cons]
              · intro c hc vcv hcv
                rcases List.mem_map.mp hc with ⟨nd, hnd, hce⟩
                have hndns : nd ∈ n0 :: nrest := by
                  rw [hdecn]
                  exact List.mem_append_left _ hnd
                have h5 := mm_mono_succ (hndval nd hndns)
                rw [← hce, h5] at hcv
                cases hcv
                have h6 := hp2n nd hnd
                simp only [Bool.false_eq_true, if_false]
                exact h6
        · -- maximizing node
          simp only [if_true] at hv
          subst hv
          have hVr : -score < vs.foldl max v0 ∧ vs.foldl max v0 < score := by
            rcases foldl_max_attained vs v0 with he | he
            · rw [he, ← hvc0]
              exact hrangec c0 (List.mem_cons_self _ _)
            · have hmem : vs.foldl max v0 ∈ cs.map (fun c => (mm a fuel c (d + 1) (!true)).getD 0) := by
                rw [← hmapvs]
                exact he
              rcases List.mem_map.mp hmem with ⟨c, hc, hceq⟩
              rw [← hceq]
              exact hrangec c (List.mem_cons_of_mem _ hc)
          have hattain_n : ∀ nd ∈ n0 :: nrest,
              (mm a fuel nd.elem (d + 1) (!true)).getD 0 ≤ vs.foldl max v0 := by
            intro nd hnd
            rcases List.mem_cons.mp (hndmem nd hnd) with he | he
            · rw [he, hvc0]
              exact foldl_max_init_le _ _
            · refine foldl_max_mem_le _ ?_
              rw [hmapvs]
              exact List.mem_map_of_mem _ he
          have hev_n : ∀ nd ∈ n0 :: nrest, ∀ al mp0, -score ≤ al → al < score →
              ∃ w mp2, (fun al be child mp2 => Eager.minimax a fuel al be child mp2) al score nd mp0 = .ok w mp2 ∧
                w ≤ max al ((mm a fuel nd.elem (d + 1) (!true)).getD 0) ∧
                min score ((mm a fuel nd.elem (d + 1) (!true)).getD 0) ≤ w ∧
                (∀ p ∈ mp2, p ∈ mp0 ∨ p.2 ∈ a.successors p.1) := by
            intro nd hnd al mp0 hal hal2
            rcases heval_n nd hnd al score mp0 with ⟨mp2, hrun, hcach⟩
            refine ⟨(mm a fuel nd.elem (d + 1) (!true)).getD 0, mp2, hrun,
              le_max_right _ _, min_le_right _ _, hcach⟩
          have hVlow2 : min score (vs.foldl max v0) ≤ -score ∨
              ∃ nd ∈ n0 :: nrest,
                vs.foldl max v0 ≤ (mm a fuel nd.elem (d + 1) (!true)).getD 0 := by
            right
            rcases foldl_max_attained vs v0 with he | he
            · refine ⟨n0, List.mem_cons_self _ _, ?_⟩
              rw [helem0, hvc0, he]
            · have hmem : vs.foldl max v0 ∈ cs.map (fun c => (mm a fuel c (d + 1) (!true)).getD 0) := by
                rw [← hmapvs]
                exact he
              rcases List.mem_map.mp hmem with ⟨c, hc, hceq⟩
              rcases buildList_mem hns c (List.mem_cons_of_mem _ hc) with ⟨n, hn, hnm⟩
              refine ⟨n, hnm, ?_⟩
              rw [makeNode_elem hn, hceq]
          have hloop := maxLoop_spec a
            (fun al be child mp2 => Eager.minimax a fuel al be child mp2)
            Eager.node.elem
            (fun nd => (mm a fuel nd.elem (d + 1) (!true)).getD 0) s (-score) score
            (n0 :: nrest) (vs.foldl max v0) (le_refl _) (by decide) (le_refl _)
            hrangen hattain_n hev_n hmape_n
            (n0 :: nrest) [] (-score) (-score) none mp rfl (by clear * -; omega) (by decide)
            (le_refl _) (fun _ => ⟨rfl, rfl⟩) (fun b hb => by cases hb)
            (fun c hc => absurd hc (List.not_mem_nil _))
            (by clear * -; omega) hVlow2 (fun _ => List.cons_ne_nil _ _)
          rcases hloop with ⟨w, mp1, b, hrun, hw1, hw2, hw3, hlook, hbcs0, hcache, hexact⟩
          rcases hexact (by clear * - hVr; omega) (by clear * - hVr; omega)
            with ⟨hweq, hvcb, p2n, s2n, hdecn, hp2n⟩
          refine ⟨mp1, ?_, hcache, ?_⟩
          · rw [eager_minimax_mk_eq, ht]
            rw [← hweq]
            exact hrun
          · intro _
            refine ⟨Eager.node.elem b, hlook, hndmem b hbcs0, ?_, ?_⟩
            · rw [← hvcb]
              exact mm_mono_succ (hndval b hbcs0)
            · refine ⟨p2n.map Eager.node.elem, s2n.map Eager.node.elem, ?_, ?_⟩
              · rw [← hmapelem, hdecn, List.map_append, List.map_cons]
              · intro c hc vcv hcv
                rcases List.mem_map.mp hc with ⟨nd, hnd, hce⟩
                have hndns : nd ∈ n0 :: nrest := by
                  rw [hdecn]
                  exact List.mem_append_left _ hnd
                have h5 := mm_mono_succ (hndval nd hndns)
                rw [← hce, h5] at hcv
                cases hcv
                have h6 := hp2n nd hnd
                simp only [if_true]
                exact h6
    · -- terminal: built children are empty, value is the depth-adjusted score
      have hs := hterm s ht
      rw [mm_terminal ht] at hmm
      cases hmm
      have hnseq : Eager.buildList (fun succ => Eager.makeNode a fuel succ (d + 1) (!m))
          (a.successors s) = some [] := by
        rw [hs]
        rfl
      refine ⟨Eager.node.mk s d m [], by rw [Eager.makeNode, hnseq]; rfl, ?_⟩
      intro alIn beIn mp
      refine ⟨mp, ?_, fun p hp => Or.inl hp, ?_⟩
      · rw [eager_minimax_mk_eq, ht]
        rfl
      · intro hnt
        exact Bool.noConfusion hnt

/-- A list has at most one "first element satisfying `P`": two
decompositions whose pivots satisfy `P` and whose prefixes avoid `P` name
the same pivot. -/
theorem first_attain_unique {α : Type} {P : α → Prop} :
    ∀ (p1 : List α) (s1 p2 s2 : List α) (b1 b2 : α),
      p1 ++ b1 :: s1 = p2 ++ b2 :: s2 →
      P b1 → P b2 → (∀ c ∈ p1, ¬ P c) → (∀ c ∈ p2, ¬ P c) → b1 = b2 := by
  intro p1
  induction p1 with
  | nil =>
    intro s1 p2 s2 b1 b2 heq hP1 hP2 hn1 hn2
    cases p2 with
    | nil =>
      simp only [List.nil_append, List.cons.injEq] at heq
      exact heq.1
    | cons z p2t =>
      simp only [List.nil_append, List.cons_append, List.cons.injEq] at heq
      exact absurd hP1 (heq.1 ▸ hn2 z (List.mem_cons_self _ _))
  | cons y p1t ih =>
    intro s1 p2 s2 b1 b2 heq hP1 hP2 hn1 hn2
    cases p2 with
    | nil =>
      simp only [List.nil_append, List.cons_append, List.cons.injEq] at heq
      exact absurd hP2 (heq.1 ▸ hn1 y (List.mem_cons_self _ _))
    | cons z p2t =>
      simp only [List.cons_append, List.cons.injEq] at heq
      exact ih s1 p2t s2 b1 b2 heq.2 hP1 hP2
        (fun c hc => hn1 c (List.mem_cons_of_mem _ hc))
        (fun c hc => hn2 c (List.mem_cons_of_mem _ hc))

/-- A successful lookup names an entry of the association list. -/
theorem lookupc_mem : ∀ {mp : List (T × T)} {s b : T},
    lookupc mp s = some b → (s, b) ∈ mp := by
  intro mp
  induction mp with
  | nil => intro s b h; cases h
  | cons p rest ih =>
    intro s b h
    rcases p with ⟨k, v⟩
    rw [lookupc] at h
    by_cases hk : k = s
    · rw [if_pos hk] at h
      cases h
      subst hk
      exact List.mem_cons_self _ _
    · rw [if_neg hk] at h
      exact List.mem_cons_of_mem _ (ih h)

/-- Destructor for a successful lazy `Make`. -/
theorem lazy_Make_destruct {evalFuel : Nat} {s : T} {ti : T → Bool} {ut : T → Int}
    {su : T → List T} {m : Bool} {e : Minimax T}
    (h : Lazy.Make evalFuel s ti ut su m = some e) :
    ∃ w mp1, Lazy.minimax ⟨ti, ut, su⟩ evalFuel (-score) score s 0 m [] = .ok w mp1 ∧
      e = ⟨mp1, ti, ut, su, m⟩ := by
  rw [Lazy.Make] at h
  cases hrun : Lazy.minimax ⟨ti, ut, su⟩ evalFuel (-score) score s 0 m [] with
  | ok w mp1 =>
    rw [hrun] at h
    cases h
    exact ⟨w, mp1, rfl, rfl⟩
  | panicked =>
    rw [hrun] at h
    cases h
  | noFuel =>
    rw [hrun] at h
    cases h

/-- The move map of an engine built by the lazy `Make` only stores moves
that are successors of their key. -/
theorem lazy_Make_sound {evalFuel : Nat} {s : T} {a : Adapter T} {m : Bool}
    {e : Minimax T}
    (h : Lazy.Make evalFuel s a.isTerminal a.utility a.successors m = some e) :
    ∀ p ∈ e.moveMap, p.2 ∈ a.successors p.1 := by
  rcases lazy_Make_destruct h with ⟨w, mp1, hrun, he⟩
  subst he
  intro p hp
  rcases lazy_minimax_cache_sound evalFuel (-score) score s 0 m [] w mp1 hrun p hp
    with h2 | h2
  · cases h2
  · exact h2

/-- Any move the lazy `Solve` returns is a successor of the queried state,
provided the engine's stored map is sound; rebuilds preserve soundness. -/
theorem lazy_Solve_mem {a : Adapter T} {evalFuel : Nat} :
    ∀ (f : Nat) (mp0 : List (T × T)) (m : Bool) (s b : T) (k : Nat),
      (∀ p ∈ mp0, p.2 ∈ a.successors p.1) →
      Lazy.Solve evalFuel f ⟨mp0, a.isTerminal, a.utility, a.successors, m⟩ s
        = .ret (some b) k →
      b ∈ a.successors s := by
  intro f
  induction f with
  | zero => intro mp0 m s b k hsound h; cases h
  | succ f ih =>
    intro mp0 m s b k hsound h
    rw [Lazy.Solve] at h
    by_cases ht : a.isTerminal s = true
    · simp only [ht, if_true] at h
      cases h
    · simp only [ht, if_false] at h
      cases hl : lookupc mp0 s with
      | some b0 =>
        rw [hl] at h
        cases h
        exact hsound (s, b) (lookupc_mem hl)
      | none =>
        rw [hl] at h
        cases hmk : Lazy.Make evalFuel s a.isTerminal a.utility a.successors m with
        | none =>
          rw [hmk] at h
          cases h
        | some newMM =>
          rw [hmk] at h
          rcases lazy_Make_destruct hmk with ⟨w, mp1, hrun, he⟩
          subst he
          simp only [] at h
          cases hrec : Lazy.Solve evalFuel f
              ⟨mp1, a.isTerminal, a.utility, a.successors, m⟩ s with
          | fail =>
            rw [hrec] at h
            cases h
          | ret r k2 =>
            rw [hrec] at h
            cases h
            have hsound1 : ∀ p ∈ mp1, p.2 ∈ a.successors p.1 := by
              intro p hp
              rcases lazy_minimax_cache_sound evalFuel (-score) score s 0 m [] w mp1
                  hrun p hp with h2 | h2
              · cases h2
              · exact h2
            exact ih mp1 m s b k2 hsound1 hrec

/-- On a cache miss at a non-terminal state with successors, one rebuild
suffices: the lazy `Solve` answers with the optimal first-attaining move of
the rebuilt search after exactly one rebuild. -/
theorem lazy_Solve_miss_optimal {a : Adapter T} (hu : UtilOK a) {evalFuel : Nat}
    {s : T} {m : Bool} {v : Int} {mp0 : List (T × T)} (f : Nat)
    (hd : DepthOK a s 0) (hmm : mm a evalFuel s 0 m = some v)
    (ht : a.isTerminal s = false) (hne : a.successors s ≠ [])
    (hmiss : lookupc mp0 s = none) :
    ∃ b, Lazy.Solve evalFuel (f + 2) ⟨mp0, a.isTerminal, a.utility, a.successors, m⟩ s
        = .ret (some b) 1 ∧
      b ∈ a.successors s ∧ mm a evalFuel b 1 (!m) = some v ∧
      ∃ p2 s2, a.successors s = p2 ++ b :: s2 ∧
        ∀ c ∈ p2, ∀ vcv, mm a evalFuel c 1 (!m) = some vcv →
          (if m then vcv < v else v < vcv) := by
  have hvr := mm_root_range hu hmm hd ht
  rcases lazy_minimax_spec hu evalFuel s 0 m (-score) score v [] hmm hd (le_refl _)
      (by decide) (le_refl _) with ⟨w, mp1, hrun, hub, hlb, hcache, hclause⟩
  rcases hclause ht hne with ⟨b, hlook, hbmem, hexact⟩
  rcases hexact (by clear * - hvr; omega) (by clear * - hvr; omega)
    with ⟨hbv, p2, s2, hdec, hp2⟩
  refine ⟨b, ?_, hbmem, hbv, p2, s2, hdec, hp2⟩
  have hmk : Lazy.Make evalFuel s a.isTerminal a.utility a.successors m
      = some ⟨mp1, a.isTerminal, a.utility, a.successors, m⟩ := by
    rw [Lazy.Make, hrun]
  rw [Lazy.Solve]
  simp only [ht, Bool.false_eq_true, if_false, hmiss, hmk]
  rw [Lazy.Solve]
  simp only [ht, Bool.false_eq_true, if_false, hlook]

/-- On a cache hit, the lazy `Solve` answers immediately with no rebuild. -/
theorem lazy_Solve_hit {evalFuel f : Nat} {mp0 : List (T × T)} {ti : T → Bool}
    {ut : T → Int} {su : T → List T} {m : Bool} {s b : T}
    (ht : ti s = false) (hl : lookupc mp0 s = some b) :
    Lazy.Solve evalFuel (f + 1) ⟨mp0, ti, ut, su, m⟩ s = .ret (some b) 0 := by
  rw [Lazy.Solve]
  simp only [ht, Bool.false_eq_true, if_false, hl]

/-- On a terminal state, the lazy `Solve` returns "no move" at once. -/
theorem lazy_Solve_terminal {evalFuel f : Nat} {mp0 : List (T × T)} {ti : T → Bool}
    {ut : T → Int} {su : T → List T} {m : Bool} {s : T}
    (ht : ti s = true) :
    Lazy.Solve evalFuel (f + 1) ⟨mp0, ti, ut, su, m⟩ s = .ret none 0 := by
  rw [Lazy.Solve]
  simp only [ht, if_true]

/-- If the old eager `Solve` is asked about a state with no successors and
no cache entry — in particular any terminal state of a well-formed adapter
— it rebuilds, the rebuild caches nothing for that state, and the retry
repeats the miss: the call never returns, whatever fuel it is given. -/
theorem eager_Solve_nosucc_diverges {ti : T → Bool} {ut : T → Int}
    {su : T → List T} {m : Bool} {s : T} (F2 : Nat)
    (hsu : su s = []) :
    ∀ (f : Nat) (mp0 : List (T × T)), lookupc mp0 s = none →
      Eager.Solve (F2 + 1) f ⟨mp0, ti, ut, su, m⟩ s = .fail := by
  have hbn : Eager.makeNode ⟨ti, ut, su⟩ (F2 + 1) s 0 m = some (Eager.node.mk s 0 m []) := by
    rw [Eager.makeNode]
    simp only [hsu]
    rfl
  have hev2 : Eager.minimax ⟨ti, ut, su⟩ (F2 + 1) (-score) score (Eager.node.mk s 0 m []) []
      = .ok (termScore (ut s) 0) [] := by
    rw [eager_minimax_mk_eq]
    simp only [List.isEmpty_nil, Bool.or_true, if_true]
  have hmk : Eager.Make (F2 + 1) s ti ut su m = some ⟨[], ti, ut, su, m⟩ := by
    simp only [Eager.Make, hbn, hev2]
  intro f
  induction f with
  | zero => intro mp0 _; rfl
  | succ f ih =>
    intro mp0 hmiss
    rw [Eager.Solve]
    simp only [hmiss, hmk]
    rw [ih [] rfl]

/-- If the lazy `Solve` is asked about a non-terminal state with no
successors and no cache entry, the rebuild scores it as an implicit
terminal without caching anything, and the retry repeats the miss: the
call never returns, whatever fuel it is given. -/
theorem lazy_Solve_childless_diverges {ti : T → Bool} {ut : T → Int}
    {su : T → List T} {m : Bool} {s : T} (F2 : Nat)
    (ht : ti s = false) (hsu : su s = []) :
    ∀ (f : Nat) (mp0 : List (T × T)), lookupc mp0 s = none →
      Lazy.Solve (F2 + 1) f ⟨mp0, ti, ut, su, m⟩ s = .fail := by
  have hev2 : Lazy.minimax ⟨ti, ut, su⟩ (F2 + 1) (-score) score s 0 m []
      = .ok (ut s) [] := by
    rw [Lazy.minimax]
    simp only [ht, Bool.false_eq_true, if_false, hsu]
  have hmk : Lazy.Make (F2 + 1) s ti ut su m = some ⟨[], ti, ut, su, m⟩ := by
    rw [Lazy.Make, hev2]
  intro f
  induction f with
  | zero => intro mp0 _; rfl
  | succ f ih =>
    intro mp0 hmiss
    rw [Lazy.Solve]
    simp only [ht, Bool.false_eq_true, if_false, hmiss, hmk]
    rw [ih [] rfl]

/-- Go executes a sequence of `m.Solve(s)` calls on a value receiver: every
call gets its own copy of the engine, so each call observes the same
`moveMap` field.  `solveSeq` records each call's result together with the
cache the call observed. -/
def solveSeq (evalFuel f : Nat) (m : Minimax T) : List T → List (SolveRes T × List (T × T))
  | [] => []
  | s :: rest => (Lazy.Solve evalFuel f m s, m.moveMap) :: solveSeq evalFuel f m rest

/-- Both engine variants compute the same root value — the reference
value — and record the same best successor for a non-terminal root, on
adapters whose zero-successor states are exactly the terminal states. -/
theorem eager_lazy_root_agree {a : Adapter T} (hu : UtilOK a)
    (hterm : ∀ t, a.isTerminal t = true → a.successors t = [])
    (hnc : ∀ t, a.isTerminal t = false → a.successors t ≠ [])
    {F : Nat} {s : T} {m : Bool} {v : Int}
    (hmm : mm a F s 0 m = some v) (hd : DepthOK a s 0)
    (ht : a.isTerminal s = false) :
    ∃ mpL tr mpE b,
      Lazy.minimax a F (-score) score s 0 m [] = .ok v mpL ∧
      Eager.makeNode a F s 0 m = some tr ∧
      Eager.minimax a F (-score) score tr [] = .ok v mpE ∧
      lookupc mpL s = some b ∧ lookupc mpE s = some b ∧ b ∈ a.successors s := by
  have hvr := mm_root_range hu hmm hd ht
  have hnotP : ∀ (p2 : List T),
      (∀ c ∈ p2, ∀ vcv, mm a F c 1 (!m) = some vcv → (if m then vcv < v else v < vcv)) →
      ∀ c ∈ p2, ¬ (mm a F c 1 (!m) = some v) := by
    intro p2 hp2 c hc hPc
    have h2 := hp2 c hc v hPc
    rcases m with _ | _
    · simp only [Bool.false_eq_true, if_false] at h2
      exact absurd h2 (lt_irrefl v)
    · simp only [if_true] at h2
      exact absurd h2 (lt_irrefl v)
  rcases lazy_minimax_spec hu F s 0 m (-score) score v [] hmm hd (le_refl _)
      (by decide) (le_refl _) with ⟨wL, mpL, hrunL, hubL, hlbL, _, hclauseL⟩
  have hwL : wL = v := by clear * - hubL hlbL hvr; omega
  rw [hwL] at hrunL
  rcases hclauseL ht (hnc s ht) with ⟨bL, hlookL, hbmemL, hexactL⟩
  rcases hexactL (by clear * - hvr; omega) (by clear * - hvr; omega)
    with ⟨hbLv, p2L, s2L, hdecL, hp2L⟩
  rcases eager_spec hu hterm hnc F s 0 m v hmm hd with ⟨tr, hbuild, heval⟩
  rcases heval (-score) score [] with ⟨mpE, hrunE, _, hclauseE⟩
  rcases hclauseE ht with ⟨bE, hlookE, hbmemE, hbEv, p2E, s2E, hdecE, hp2E⟩
  have hbeq : bL = bE :=
    first_attain_unique p2L s2L p2E s2E bL bE (hdecL.symm.trans hdecE)
      hbLv hbEv (hnotP p2L hp2L) (hnotP p2E hp2E)
  subst hbeq
  exact ⟨mpL, tr, mpE, bL, hrunL, hbuild, hrunE, hlookL, hlookE, hbmemL⟩

/-! Concrete games used to witness and to refute the claims.  States are
natural numbers; the game graphs are tiny and fully decidable. -/

/-- Game with a pruned interior node: from root 0 the build cuts off the
second child of state 2, caching a suboptimal move for it. -/
def gPruned : Adapter Nat :=
  ⟨fun t => t = 1 ∨ t = 3 ∨ t = 4,
   fun t => if t = 4 then -1 else 0,
   fun t => if t = 0 then [1, 2] else if t = 2 then [3, 4] else []⟩

/-- Engine the lazy `Make` produces for `gPruned` rooted at 0. -/
def ePruned : Minimax Nat :=
  ⟨[(0, 1), (2, 3)], gPruned.isTerminal, gPruned.utility, gPruned.successors, true⟩

/-- Game whose pruned subtree contains an interior node (state 4), making
the eager and lazy caches differ. -/
def gBranch : Adapter Nat :=
  ⟨fun t => t = 1 ∨ t = 3 ∨ t = 5,
   fun t => if t = 5 then 0 else 1,
   fun t => if t = 0 then [1, 2] else if t = 2 then [3, 4]
     else if t = 4 then [5] else []⟩

/-- Engine the lazy `Make` produces for `gBranch` rooted at 0. -/
def eBranch : Minimax Nat :=
  ⟨[(0, 1), (2, 3)], gBranch.isTerminal, gBranch.utility, gBranch.successors, true⟩

/-- The same game as `gBranch` but with zero-successor states exactly the
terminal states, so that it satisfies every well-formedness hypothesis. -/
def gWell : Adapter Nat :=
  ⟨fun t => ¬(t = 0 ∨ t = 2 ∨ t = 4),
   fun t => if t = 5 then 0 else 1,
   fun t => if t = 0 then [1, 2] else if t = 2 then [3, 4]
     else if t = 4 then [5] else []⟩

/-- Engine the lazy `Make` produces for `gWell` rooted at 0. -/
def eWell : Minimax Nat :=
  ⟨[(0, 1), (2, 3)], gWell.isTerminal, gWell.utility, gWell.successors, true⟩

/-- Degenerate game in which every state is terminal with no successors. -/
def gTermOnly : Adapter Nat := ⟨fun _ => true, fun _ => 0, fun _ => []⟩

/-- Engine the eager `Make` produces for `gTermOnly` rooted at 0. -/
def eTermOnly : Minimax Nat :=
  ⟨[], gTermOnly.isTerminal, gTermOnly.utility, gTermOnly.successors, true⟩

/-- Degenerate game in which every state is non-terminal with no
successors. -/
def gVoid : Adapter Nat := ⟨fun _ => false, fun _ => 0, fun _ => []⟩

/-- Engine the lazy `Make` produces for `gVoid` rooted at 0. -/
def eVoid : Minimax Nat :=
  ⟨[], gVoid.isTerminal, gVoid.utility, gVoid.successors, true⟩

/-- Game with a non-terminal childless state (state 1) of utility 1. -/
def gLeaf : Adapter Nat :=
  ⟨fun _ => false, fun _ => 1, fun t => if t = 0 then [1] else []⟩

/-- Game with a non-terminal childless state whose raw utility lies far
outside the scoring window. -/
def gBigUtil : Adapter Nat :=
  ⟨fun _ => false, fun _ => -1000, fun t => if t = 0 then [1] else []⟩

theorem gWell_meas : ∀ u c, gWell.isTerminal u = false → c ∈ gWell.successors u →
    5 - c < 5 - u := by
  intro u c _ hc
  simp only [gWell] at hc
  split_ifs at hc with h0 h2 h4
  · subst h0
    simp only [List.mem_cons, List.not_mem_nil, or_false] at hc
    rcases hc with rfl | rfl <;> omega
  · subst h2
    simp only [List.mem_cons, List.not_mem_nil, or_false] at hc
    rcases hc with rfl | rfl <;> omega
  · subst h4
    simp only [List.mem_cons, List.not_mem_nil, or_false] at hc
    subst hc
    omega
  · cases hc

theorem gWell_depthok (s d : Nat) (hs : s ≤ 5) (hdle : d ≤ 10) : DepthOK gWell s d := by
  intro t e hr _
  have h := SReach.depth_bound (fun t => 5 - t) gWell_meas hr
  have h2 : e + (5 - t) ≤ d + (5 - s) := h
  omega

theorem gWell_util : UtilOK gWell := by
  intro t
  constructor
  · simp only [gWell]
    split_ifs <;> decide
  · simp only [gWell]
    split_ifs <;> decide

theorem gWell_term : ∀ t, gWell.isTerminal t = true → gWell.successors t = [] := by
  intro t h
  simp only [gWell, decide_eq_true_eq] at h
  simp only [gWell]
  split_ifs with h0 h2 h4
  · exact absurd (Or.inl h0) h
  · exact absurd (Or.inr (Or.inl h2)) h
  · exact absurd (Or.inr (Or.inr h4)) h
  · rfl

theorem gWell_nc : ∀ t, gWell.isTerminal t = false → gWell.successors t ≠ [] := by
  intro t h
  simp only [gWell, decide_eq_false_iff_not, not_not] at h
  simp only [gWell]
  rcases h with rfl | rfl | rfl
  · simp
  · simp
  · simp

/-! The ten claims.  Each claim has one theorem; corrected claims also
have a concrete counterexample refuting the original wording. -/

/-- Divergence of the lazy `Solve`: no fuel makes the call return. -/
def LazyNeverReturns (evalFuel : Nat) (e : Minimax T) (s : T) : Prop :=
  ∀ f, Lazy.Solve evalFuel f e s = .fail

/-- Divergence of the eager `Solve`: no fuel makes the call return. -/
def EagerNeverReturns (evalFuel : Nat) (e : Minimax T) (s : T) : Prop :=
  ∀ f, Eager.Solve evalFuel f e s = .fail

/-- Child evaluator stub returning a large value, for loop-behaviour
witnesses. -/
def evLarge : Int → Int → Nat → List (Nat × Nat) → Res Nat :=
  fun _ _ _ mp => .ok 5 mp

/-- Child evaluator stub returning a small value, for loop-behaviour
witnesses. -/
def evSmall : Int → Int → Nat → List (Nat × Nat) → Res Nat :=
  fun _ _ _ mp => .ok (-9) mp

/-- The eager search tree of `gLeaf` rooted at 0. -/
def trLeaf : Eager.node Nat := .mk 0 0 true [.mk 1 1 false []]

/-- The eager search tree of `gWell` rooted at 0. -/
def trWell : Eager.node Nat :=
  .mk 0 0 true [.mk 1 1 false [],
    .mk 2 1 false [.mk 3 2 true [], .mk 4 2 true [.mk 5 3 false []]]]

/-- C1 (amended): on an engine built by the lazy `Make`, `Solve` of a
non-terminal state with at least one successor always returns a member of
`Successors(s)`; and whenever the lookup misses — so that `Solve` rebuilds
from `s` with a full window — the returned move achieves the full-search
(unpruned) minimax value of `s`, after exactly one rebuild.  (A cache hit
on an entry recorded under a narrowed window during a pruned build may
return a non-optimal move; see the counterexample.) -/
theorem claim_C1 {a : Adapter T} {F : Nat} {r s : T} {m : Bool} {v : Int}
    {e : Minimax T} (hu : UtilOK a) (hd : DepthOK a s 0)
    (hmm : mm a F s 0 m = some v) (ht : a.isTerminal s = false)
    (hne : a.successors s ≠ [])
    (hMake : Lazy.Make F r a.isTerminal a.utility a.successors m = some e) :
    (∀ f b k, Lazy.Solve F f e s = .ret (some b) k → b ∈ a.successors s) ∧
    (lookupc e.moveMap s = none → ∀ f, ∃ b,
      Lazy.Solve F (f + 2) e s = .ret (some b) 1 ∧ b ∈ a.successors s ∧
      mm a F b 1 (!m) = some v) := by
  have hsound := lazy_Make_sound hMake
  rcases lazy_Make_destruct hMake with ⟨w, mp1, hrun, he⟩
  subst he
  constructor
  · intro f b k h
    exact lazy_Solve_mem f mp1 m s b k hsound h
  · intro hmiss f
    rcases lazy_Solve_miss_optimal hu f hd hmm ht hne hmiss with ⟨b, hsol, hbmem, hbv, _⟩
    exact ⟨b, hsol, hbmem, hbv⟩

/-- C1 counterexample: on the engine built from root 0 of `gPruned`,
`Solve 2` hits the cache entry recorded while node 2 was being pruned and
returns move 3, whose minimax value is 0; the full-search minimax value of
state 2 (a minimizing position) is −99, achieved only by move 4.  The
returned move is a legal successor but does not achieve the full-search
value. -/
theorem claim_C1_counterexample :
    Lazy.Make 10 0 gPruned.isTerminal gPruned.utility gPruned.successors true
      = some ePruned ∧
    Lazy.Solve 10 5 ePruned 2 = .ret (some 3) 0 ∧
    gPruned.successors 2 = [3, 4] ∧
    mm gPruned 10 2 0 false = some (-99) ∧
    mm gPruned 10 3 1 true = some 0 ∧
    mm gPruned 10 4 1 true = some (-99) ∧
    (0 : Int) ≠ -99 :=
  ⟨rfl, by decide, by decide, by decide, by decide, by decide, by decide⟩

/-- C1 witness at `gWell`, state 4 (a cache miss on the engine built from
root 0). -/
theorem claim_C1_witness :
    5 ∈ gWell.successors 4 ∧
    (∃ b, Lazy.Solve 10 (3 + 2) eWell 4 = SolveRes.ret (some b) 1 ∧
      b ∈ gWell.successors 4 ∧ mm gWell 10 b 1 false = some 0) := by
  have hmm4 : mm gWell 10 4 0 true = some 0 := by decide
  have hMk : Lazy.Make 10 0 gWell.isTerminal gWell.utility gWell.successors true
      = some eWell := rfl
  have h := claim_C1 gWell_util (gWell_depthok 4 0 (by decide) (by decide)) hmm4
    (by decide) (by decide) hMk
  exact ⟨h.1 5 5 1 (by decide), h.2 (by decide) 3⟩

/-- C2 (amended): the lazy (current) `Solve` returns "no move" on every
state its adapter reports terminal; the eager (old) `Solve` has no
terminal check, and on a state with no successors and no cache entry —
in particular a terminal state of a well-formed adapter — it rebuilds
fruitlessly forever and never returns. -/
theorem claim_C2 (evalFuel f F2 f2 : Nat) (mp0 : List (T × T)) (ti : T → Bool)
    (ut : T → Int) (su : T → List T) (m : Bool) (s : T) :
    (ti s = true → Lazy.Solve evalFuel (f + 1) ⟨mp0, ti, ut, su, m⟩ s = .ret none 0) ∧
    (su s = [] → lookupc mp0 s = none →
      Eager.Solve (F2 + 1) f2 ⟨mp0, ti, ut, su, m⟩ s = .fail) :=
  ⟨fun ht => lazy_Solve_terminal ht,
   fun hsu hmiss => eager_Solve_nosucc_diverges F2 hsu f2 mp0 hmiss⟩

/-- C2 counterexample: state 0 of `gTermOnly` is terminal, yet the eager
`Solve` on the engine its own `Make` built never returns on it — it does
not return "no move". -/
theorem claim_C2_counterexample :
    gTermOnly.isTerminal 0 = true ∧
    Eager.Make 5 0 gTermOnly.isTerminal gTermOnly.utility gTermOnly.successors true
      = some eTermOnly ∧
    EagerNeverReturns 5 eTermOnly 0 :=
  ⟨rfl, rfl, fun f => eager_Solve_nosucc_diverges 4 rfl f [] rfl⟩

/-- C2 witness at `gTermOnly`. -/
theorem claim_C2_witness :
    Lazy.Solve 7 (2 + 1) eTermOnly 0 = SolveRes.ret none 0 ∧
    Eager.Solve (4 + 1) 9 eTermOnly 0 = SolveRes.fail := by
  have h := claim_C2 7 2 4 9 [] gTermOnly.isTerminal gTermOnly.utility
    gTermOnly.successors true 0
  exact ⟨h.1 rfl, h.2 rfl rfl⟩

/-- C3 (amended): `Solve` is total on terminal states (returning "no
move") and on non-terminal states with at least one successor (returning
a valid successor after at most one rebuild), provided the game below the
state is finite with in-window utilities and terminals shallower than
100.  It is not total on non-terminal states with zero successors: there
the rebuild caches nothing for the state and `Solve` never returns (see
the counterexample). -/
theorem claim_C3 {a : Adapter T} {F : Nat} {s : T} {m : Bool} {v : Int}
    {mp0 : List (T × T)} (hu : UtilOK a) (hd : DepthOK a s 0)
    (hmm : mm a F s 0 m = some v)
    (hsound : ∀ p ∈ mp0, p.2 ∈ a.successors p.1) (f : Nat) :
    (a.isTerminal s = true →
      Lazy.Solve F (f + 2) ⟨mp0, a.isTerminal, a.utility, a.successors, m⟩ s
        = .ret none 0) ∧
    (a.isTerminal s = false → a.successors s ≠ [] →
      ∃ b k, Lazy.Solve F (f + 2) ⟨mp0, a.isTerminal, a.utility, a.successors, m⟩ s
          = .ret (some b) k ∧ k ≤ 1 ∧ b ∈ a.successors s) := by
  constructor
  · intro ht
    exact lazy_Solve_terminal ht
  · intro ht hne
    cases hl : lookupc mp0 s with
    | some b0 =>
      refine ⟨b0, 0, ?_, by omega, hsound (s, b0) (lookupc_mem hl)⟩
      exact lazy_Solve_hit ht hl
    | none =>
      rcases lazy_Solve_miss_optimal hu f hd hmm ht hne hl with ⟨b, hsol, hbmem, _⟩
      exact ⟨b, 1, hsol, by omega, hbmem⟩

/-- C3 counterexample: state 0 of `gVoid` is non-terminal with zero
successors; on the engine built by the lazy `Make` itself, `Solve 0`
never returns, for any fuel: the claim's "always inserts that state's own
entry" fails because the implicit-terminal path returns before the cache
write. -/
theorem claim_C3_counterexample :
    gVoid.isTerminal 0 = false ∧
    gVoid.successors 0 = [] ∧
    Lazy.Make 5 0 gVoid.isTerminal gVoid.utility gVoid.successors true = some eVoid ∧
    LazyNeverReturns 5 eVoid 0 :=
  ⟨rfl, rfl, rfl, fun f => lazy_Solve_childless_diverges 4 rfl rfl f [] rfl⟩

/-- C3 witness at `gWell`, states 5 (terminal) and 4 (non-terminal,
cache miss). -/
theorem claim_C3_witness :
    Lazy.Solve 10 (3 + 2) eWell 5 = SolveRes.ret none 0 ∧
    (∃ b k, Lazy.Solve 10 (3 + 2) eWell 4 = SolveRes.ret (some b) k ∧ k ≤ 1 ∧
      b ∈ gWell.successors 4) := by
  have hmm4 : mm gWell 10 4 0 true = some 0 := by decide
  have hmm5 : mm gWell 10 5 0 true = some 0 := by decide
  have hsound : ∀ p ∈ eWell.moveMap, p.2 ∈ gWell.successors p.1 := by decide
  have h4 := claim_C3 gWell_util (gWell_depthok 4 0 (by decide) (by decide)) hmm4
    hsound 3
  have h5 := claim_C3 gWell_util (gWell_depthok 5 0 (by decide) (by decide)) hmm5
    hsound 3
  exact ⟨h5.1 (by decide), h4.2 (by decide) (by decide)⟩

/-- C4 (amended): two consecutive `Solve` calls on the same engine return
the same move and perform the same number of rebuilds, because `Solve`'s
value receiver means each call observes the identical engine; the rebuild
of a missing entry is not merged back, so a second call repeats it rather
than hitting the cache. -/
theorem claim_C4 (evalFuel f : Nat) (e : Minimax T) (s : T) :
    (∃ r, solveSeq evalFuel f e [s, s] = [(r, e.moveMap), (r, e.moveMap)]) ∧
    (e.isTerminal s = false → lookupc e.moveMap s = none →
      ∀ r k, Lazy.Solve evalFuel f e s = .ret r k → 1 ≤ k) := by
  refine ⟨⟨Lazy.Solve evalFuel f e s, rfl⟩, ?_⟩
  intro ht hmiss r k h
  cases f with
  | zero => cases h
  | succ f =>
    rw [Lazy.Solve] at h
    simp only [ht, Bool.false_eq_true, if_false, hmiss] at h
    cases hmk : Lazy.Make evalFuel s e.isTerminal e.utility e.successors e.isMax with
    | none =>
      rw [hmk] at h
      cases h
    | some newMM =>
      rw [hmk] at h
      simp only [] at h
      cases hrec : Lazy.Solve evalFuel f { e with moveMap := newMM.moveMap } s with
      | fail =>
        rw [hrec] at h
        cases h
      | ret r2 k2 =>
        rw [hrec] at h
        cases h
        omega

/-- C4 witness at `gBranch`, state 4: both conjuncts instantiated on the
engine built from root 0. -/
theorem claim_C4_witness :
    (∃ r, solveSeq 10 5 eBranch [4, 4] = [(r, eBranch.moveMap), (r, eBranch.moveMap)]) ∧
    1 ≤ 1 := by
  have h := claim_C4 10 5 eBranch 4
  exact ⟨h.1, h.2 (by decide) (by decide) (some 5) 1 (by decide)⟩

/-- C4 counterexample: querying the pruned-away state 4 of `gBranch`
twice, both calls rebuild (rebuild count 1, not 0 on the second call),
and the engine's cache still has no entry for 4 afterwards — nothing was
merged. -/
theorem claim_C4_counterexample :
    Lazy.Make 10 0 gBranch.isTerminal gBranch.utility gBranch.successors true
      = some eBranch ∧
    solveSeq 10 5 eBranch [4, 4]
      = [(.ret (some 5) 1, [(0, 1), (2, 3)]), (.ret (some 5) 1, [(0, 1), (2, 3)])] ∧
    lookupc eBranch.moveMap 4 = none :=
  ⟨rfl, by decide, by decide⟩

/-- C5 (amended): for adapters whose zero-successor states are exactly
their terminal states (finite, in-window), the eager and lazy variants
compute the same root value — the full-search minimax value — and record
the same best successor for the root; their caches for other states may
differ.  Without that proviso the variants disagree, because they score
childless non-terminal states differently (see the counterexample). -/
theorem claim_C5 {a : Adapter T} (hu : UtilOK a)
    (hterm : ∀ t, a.isTerminal t = true → a.successors t = [])
    (hnc : ∀ t, a.isTerminal t = false → a.successors t ≠ [])
    {F : Nat} {s : T} {m : Bool} {v : Int}
    (hmm : mm a F s 0 m = some v) (hd : DepthOK a s 0)
    (ht : a.isTerminal s = false) :
    ∃ mpL tr mpE b,
      Lazy.minimax a F (-score) score s 0 m [] = .ok v mpL ∧
      Eager.makeNode a F s 0 m = some tr ∧
      Eager.minimax a F (-score) score tr [] = .ok v mpE ∧
      lookupc mpL s = some b ∧ lookupc mpE s = some b ∧ b ∈ a.successors s ∧
      Lazy.Make F s a.isTerminal a.utility a.successors m
        = some ⟨mpL, a.isTerminal, a.utility, a.successors, m⟩ ∧
      Eager.Make F s a.isTerminal a.utility a.successors m
        = some ⟨mpE, a.isTerminal, a.utility, a.successors, m⟩ := by
  rcases eager_lazy_root_agree hu hterm hnc hmm hd ht
    with ⟨mpL, tr, mpE, b, h1, h2, h3, h4, h5, h6⟩
  refine ⟨mpL, tr, mpE, b, h1, h2, h3, h4, h5, h6, ?_, ?_⟩
  · rw [Lazy.Make, h1]
  · simp only [Eager.Make, h2, h3]

/-- C5 counterexample: on `gLeaf`, whose state 1 is non-terminal with
zero successors and utility 1, the lazy root evaluation yields value 1
while the eager root evaluation yields 99 — the two modes do not produce
identical evaluation results. -/
theorem claim_C5_counterexample :
    gLeaf.isTerminal 1 = false ∧ gLeaf.successors 1 = [] ∧
    Lazy.minimax gLeaf 10 (-score) score 0 0 true [] = .ok 1 [(0, 1)] ∧
    Eager.makeNode gLeaf 10 0 0 true = some trLeaf ∧
    Eager.minimax gLeaf 10 (-score) score trLeaf [] = .ok 99 [(0, 1)] ∧
    (1 : Int) ≠ 99 :=
  ⟨rfl, rfl, by decide, rfl, by decide, by decide⟩

/-- C5 witness at `gWell`, root 0. -/
theorem claim_C5_witness :
    ∃ mpL tr mpE b,
      Lazy.minimax gWell 10 (-score) score 0 0 true [] = .ok 99 mpL ∧
      Eager.makeNode gWell 10 0 0 true = some tr ∧
      Eager.minimax gWell 10 (-score) score tr [] = .ok 99 mpE ∧
      lookupc mpL 0 = some b ∧ lookupc mpE 0 = some b ∧ b ∈ gWell.successors 0 ∧
      Lazy.Make 10 0 gWell.isTerminal gWell.utility gWell.successors true
        = some ⟨mpL, gWell.isTerminal, gWell.utility, gWell.successors, true⟩ ∧
      Eager.Make 10 0 gWell.isTerminal gWell.utility gWell.successors true
        = some ⟨mpE, gWell.isTerminal, gWell.utility, gWell.successors, true⟩ := by
  have hmm0 : mm gWell 10 0 0 true = some 99 := by decide
  exact claim_C5 gWell_util gWell_term gWell_nc hmm0
    (gWell_depthok 0 0 (by decide) (by decide)) (by decide)

/-- C6 (amended): the child-loop behaviour — children iterated in the
adapter's order, best move updated only on strict improvement (ties keep
the first child), alpha raised to the running maximum at maximizing nodes
and beta lowered to the running minimum at minimizing nodes, iteration
stopped once `beta ≤ alpha` — holds in both variants through the shared
loops, and the lazy variant propagates the node's inherited window into
the loop at both maximizing and minimizing nodes.  The eager (old)
variant, however, does not propagate the parent's inherited window: it
overwrites the window with `(-SCORE, SCORE)` at every node entry, so its
evaluation is independent of the inherited window (see the counterexample
for an observable consequence). -/
theorem claim_C6 :
    (∀ (a : Adapter T) (fuel : Nat) (al1 be1 al2 be2 : Int) (n : Eager.node T)
      (mp : List (T × T)),
      Eager.minimax a fuel al1 be1 n mp = Eager.minimax a fuel al2 be2 n mp) ∧
    (∀ (a : Adapter T) (fuel : Nat) (alpha beta : Int) (s : T) (d : Nat)
      (c : T) (cs : List T) (mp : List (T × T)),
      a.isTerminal s = false → a.successors s = c :: cs →
      Lazy.minimax a (fuel + 1) alpha beta s d true mp =
        maxLoop (fun al be child mp2 => Lazy.minimax a fuel al be child (d + 1) false mp2)
          id s (c :: cs) alpha beta (-score) none mp) ∧
    (∀ (a : Adapter T) (fuel : Nat) (alpha beta : Int) (s : T) (d : Nat)
      (c : T) (cs : List T) (mp : List (T × T)),
      a.isTerminal s = false → a.successors s = c :: cs →
      Lazy.minimax a (fuel + 1) alpha beta s d false mp =
        minLoop (fun al be child mp2 => Lazy.minimax a fuel al be child (d + 1) true mp2)
          id s (c :: cs) alpha beta score none mp) ∧
    (∀ (γ : Type) (evalChild : Int → Int → γ → List (T × T) → Res T)
      (celem : γ → T) (elem : T) (child : γ) (rest rest2 : List γ)
      (alpha beta maxEval eval : Int) (mp mpc : List (T × T)),
      evalChild alpha beta child mp = .ok eval mpc →
      beta ≤ max alpha (if maxEval < eval then eval else maxEval) →
      maxLoop evalChild celem elem (child :: rest) alpha beta maxEval none mp =
        maxLoop evalChild celem elem (child :: rest2) alpha beta maxEval none mp) ∧
    (∀ (γ : Type) (evalChild : Int → Int → γ → List (T × T) → Res T)
      (celem : γ → T) (elem : T) (child : γ) (rest : List γ)
      (alpha beta maxEval eval : Int) (best : Option γ) (mp mpc : List (T × T)),
      evalChild alpha beta child mp = .ok eval mpc →
      ¬ maxEval < eval → ¬ beta ≤ max alpha maxEval →
      maxLoop evalChild celem elem (child :: rest) alpha beta maxEval best mp =
        maxLoop evalChild celem elem rest (max alpha maxEval) beta maxEval best mpc) ∧
    (∀ (γ : Type) (evalChild : Int → Int → γ → List (T × T) → Res T)
      (celem : γ → T) (elem : T) (child : γ) (rest : List γ)
      (alpha beta maxEval eval : Int) (best : Option γ) (mp mpc : List (T × T)),
      evalChild alpha beta child mp = .ok eval mpc →
      maxEval < eval → ¬ beta ≤ max alpha eval →
      maxLoop evalChild celem elem (child :: rest) alpha beta maxEval best mp =
        maxLoop evalChild celem elem rest (max alpha eval) beta eval (some child) mpc) ∧
    (∀ (γ : Type) (evalChild : Int → Int → γ → List (T × T) → Res T)
      (celem : γ → T) (elem : T) (child : γ) (rest rest2 : List γ)
      (alpha beta minEval eval : Int) (mp mpc : List (T × T)),
      evalChild alpha beta child mp = .ok eval mpc →
      min beta (if eval < minEval then eval else minEval) ≤ alpha →
      minLoop evalChild celem elem (child :: rest) alpha beta minEval none mp =
        minLoop evalChild celem elem (child :: rest2) alpha beta minEval none mp) ∧
    (∀ (γ : Type) (evalChild : Int → Int → γ → List (T × T) → Res T)
      (celem : γ → T) (elem : T) (child : γ) (rest : List γ)
      (alpha beta minEval eval : Int) (best : Option γ) (mp mpc : List (T × T)),
      evalChild alpha beta child mp = .ok eval mpc →
      ¬ eval < minEval → ¬ min beta minEval ≤ alpha →
      minLoop evalChild celem elem (child :: rest) alpha beta minEval best mp =
        minLoop evalChild celem elem rest alpha (min beta minEval) minEval best mpc) ∧
    (∀ (γ : Type) (evalChild : Int → Int → γ → List (T × T) → Res T)
      (celem : γ → T) (elem : T) (child : γ) (rest : List γ)
      (alpha beta minEval eval : Int) (best : Option γ) (mp mpc : List (T × T)),
      evalChild alpha beta child mp = .ok eval mpc →
      eval < minEval → ¬ min beta eval ≤ alpha →
      minLoop evalChild celem elem (child :: rest) alpha beta minEval best mp =
        minLoop evalChild celem elem rest alpha (min beta eval) eval (some child) mpc) := by
  refine ⟨?_, ?_, ?_, ?_, ?_, ?_, ?_, ?_, ?_⟩
  · intro a fuel al1 be1 al2 be2 n mp
    cases fuel with
    | zero => rfl
    | succ fuel => cases n with | mk e d m ns => rfl
  · intro a fuel alpha beta s d c cs mp ht hs
    rw [Lazy.minimax]
    simp only [ht, Bool.false_eq_true, if_false, hs, if_true]
  · intro a fuel alpha beta s d c cs mp ht hs
    rw [Lazy.minimax]
    simp only [ht, Bool.false_eq_true, if_false, hs]
  · intro γ evalChild celem elem child rest rest2 alpha beta maxEval eval mp mpc heval hcut
    rw [maxLoop_cons_eq heval, maxLoop_cons_eq heval, if_pos hcut, if_pos hcut]
  · intro γ evalChild celem elem child rest alpha beta maxEval eval best mp mpc
      heval hle hnocut
    rw [maxLoop_cons_eq heval]
    simp only [if_neg hle, if_neg hnocut]
  · intro γ evalChild celem elem child rest alpha beta maxEval eval best mp mpc
      heval hlt hnocut
    rw [maxLoop_cons_eq heval]
    simp only [if_pos hlt, if_neg hnocut]
  · intro γ evalChild celem elem child rest rest2 alpha beta minEval eval mp mpc heval hcut
    rw [minLoop_cons_eq heval, minLoop_cons_eq heval, if_pos hcut, if_pos hcut]
  · intro γ evalChild celem elem child rest alpha beta minEval eval best mp mpc
      heval hle hnocut
    rw [minLoop_cons_eq heval]
    simp only [if_neg hle, if_neg hnocut]
  · intro γ evalChild celem elem child rest alpha beta minEval eval best mp mpc
      heval hlt hnocut
    rw [minLoop_cons_eq heval]
    simp only [if_pos hlt, if_neg hnocut]

/-- C6 counterexample: on `gBranch`, the lazy build from root 0 cuts off
state 2's second child (state 4) — its cache has no entry for 4 — while
the eager build, whose evaluator resets the window at every node, descends
into 4 and caches entries for it; the eager evaluation also picks a
different move at state 2.  The two variants therefore do not share the
claimed window propagation and cutoff behaviour. -/
theorem claim_C6_counterexample :
    Lazy.Make 10 0 gBranch.isTerminal gBranch.utility gBranch.successors true
      = some eBranch ∧
    (Eager.Make 10 0 gBranch.isTerminal gBranch.utility gBranch.successors true).map
        (fun e => e.moveMap) = some [(0, 1), (2, 4), (4, 5)] ∧
    lookupc eBranch.moveMap 4 = none ∧
    lookupc [(0, 1), (2, 4), (4, 5)] (4 : Nat) = some 5 ∧
    lookupc eBranch.moveMap 2 = some 3 ∧
    lookupc [(0, 1), (2, 4), (4, 5)] (2 : Nat) = some 4 :=
  ⟨rfl, by decide, by decide, by decide, by decide, by decide⟩

/-- C6 witness: each conjunct instantiated at concrete inputs, covering
both the maximizing and the minimizing loop. -/
theorem claim_C6_witness :
    Eager.minimax gTermOnly 3 (-7) 8 (Eager.node.mk 0 0 true []) []
      = Eager.minimax gTermOnly 3 0 1 (Eager.node.mk 0 0 true []) [] ∧
    Lazy.minimax gBranch (3 + 1) (-2) 2 0 0 true []
      = maxLoop (fun al be child mp2 => Lazy.minimax gBranch 3 al be child 1 false mp2)
          id 0 [1, 2] (-2) 2 (-score) none [] ∧
    Lazy.minimax gBranch (3 + 1) (-2) 2 2 1 false []
      = minLoop (fun al be child mp2 => Lazy.minimax gBranch 3 al be child 2 true mp2)
          id 2 [3, 4] (-2) 2 score none [] ∧
    maxLoop evLarge id 0 [1, 2] 0 3 (-4) none []
      = maxLoop evLarge id 0 [1, 9] 0 3 (-4) none [] ∧
    maxLoop evSmall id 0 [1, 2] 0 30 (-4) none []
      = maxLoop evSmall id 0 [2] (max 0 (-4)) 30 (-4) none [] ∧
    maxLoop evLarge id 0 [1, 2] 0 30 (-4) none []
      = maxLoop evLarge id 0 [2] (max 0 5) 30 5 (some 1) [] ∧
    minLoop evSmall id 0 [1, 2] 0 3 30 none []
      = minLoop evSmall id 0 [1, 9] 0 3 30 none [] ∧
    minLoop evLarge id 0 [1, 2] (-30) 3 (-4) none []
      = minLoop evLarge id 0 [2] (-30) (min 3 (-4)) (-4) none [] ∧
    minLoop evSmall id 0 [1, 2] (-30) 3 (-4) none []
      = minLoop evSmall id 0 [2] (-30) (min 3 (-9)) (-9) (some 1) [] := by
  obtain ⟨h1, h2, h3, h4, h5, h6, h7, h8, h9⟩ := @claim_C6 Nat _
  exact ⟨h1 gTermOnly 3 (-7) 8 0 1 (Eager.node.mk 0 0 true []) [],
    h2 gBranch 3 (-2) 2 0 0 1 [2] [] (by decide) (by decide),
    h3 gBranch 3 (-2) 2 2 1 3 [4] [] (by decide) (by decide),
    h4 Nat evLarge id 0 1 [2] [9] 0 3 (-4) 5 [] [] rfl (by decide),
    h5 Nat evSmall id 0 1 [2] 0 30 (-4) (-9) none [] [] rfl (by decide) (by decide),
    h6 Nat evLarge id 0 1 [2] 0 30 (-4) 5 none [] [] rfl (by decide) (by decide),
    h7 Nat evSmall id 0 1 [2] [9] 0 3 30 (-9) [] [] rfl (by decide),
    h8 Nat evLarge id 0 1 [2] (-30) 3 (-4) 5 none [] [] rfl (by decide) (by decide),
    h9 Nat evSmall id 0 1 [2] (-30) 3 (-4) (-9) none [] [] rfl (by decide) (by decide)⟩

/-- C7: both variants score a terminal node by the depth-adjusted switch
`u > 0 ↦ WIN_SCORE − depth`, `u < 0 ↦ depth − WIN_SCORE`, otherwise `0`,
with `WIN_SCORE = SCORE = 100`. -/
theorem claim_C7 {a : Adapter T} {fuel : Nat} {al be : Int} {s : T} {d : Nat}
    {m : Bool} {ns : List (Eager.node T)} {mp : List (T × T)}
    (ht : a.isTerminal s = true) :
    score = 100 ∧
    Lazy.minimax a (fuel + 1) al be s d m mp
      = .ok (if a.utility s > 0 then score - d
          else if a.utility s < 0 then (d : Int) - score else 0) mp ∧
    Eager.minimax a (fuel + 1) al be (Eager.node.mk s d m ns) mp
      = .ok (if a.utility s > 0 then score - d
          else if a.utility s < 0 then (d : Int) - score else 0) mp := by
  refine ⟨rfl, ?_, ?_⟩
  · rw [Lazy.minimax]
    simp only [ht, if_true, termScore]
  · rw [eager_minimax_mk_eq]
    simp only [ht, Bool.true_or, if_true, termScore]

/-- C7 witness at `gWell`, terminal state 1 at depth 1 with utility 1. -/
theorem claim_C7_witness :
    score = 100 ∧
    Lazy.minimax gWell (9 + 1) (-50) 50 1 1 false [] = .ok 99 [] ∧
    Eager.minimax gWell (9 + 1) (-50) 50 (Eager.node.mk 1 1 false []) [] = .ok 99 [] := by
  have h := @claim_C7 Nat _ gWell 9 (-50) 50 1 1 false [] [] (by decide)
  refine ⟨h.1, ?_, ?_⟩
  · rw [h.2.1]
    decide
  · rw [h.2.2]
    decide

/-- C8 (amended): the lazy (current) variant scores a non-terminal
childless node by the adapter's raw utility with no depth adjustment, as
claimed; the eager (old) variant instead routes such nodes through the
same depth-adjusted switch as terminals, because its guard is
`isTerminal || len(children) == 0`. -/
theorem claim_C8 {a : Adapter T} {fuel : Nat} {al be : Int} {s : T} {d : Nat}
    {m : Bool} {mp : List (T × T)} (ht : a.isTerminal s = false)
    (hs : a.successors s = []) :
    Lazy.minimax a (fuel + 1) al be s d m mp = .ok (a.utility s) mp ∧
    Eager.minimax a (fuel + 1) al be (Eager.node.mk s d m []) mp
      = .ok (termScore (a.utility s) d) mp := by
  constructor
  · rw [Lazy.minimax]
    simp only [ht, Bool.false_eq_true, if_false, hs]
  · rw [eager_minimax_mk_eq]
    simp only [List.isEmpty_nil, Bool.or_true, if_true]

/-- C8 counterexample: state 1 of `gLeaf` is non-terminal with zero
successors and raw utility 1; at depth 1 the eager evaluator assigns it
99 = SCORE − depth, a depth-adjusted value, not the raw utility. -/
theorem claim_C8_counterexample :
    gLeaf.isTerminal 1 = false ∧ gLeaf.successors 1 = [] ∧ gLeaf.utility 1 = 1 ∧
    Eager.minimax gLeaf 10 (-score) score (Eager.node.mk 1 1 false []) [] = .ok 99 [] ∧
    (99 : Int) ≠ 1 :=
  ⟨by decide, by decide, by decide, by decide, by decide⟩

/-- C8 witness at `gLeaf`, childless non-terminal state 1 at depth 1. -/
theorem claim_C8_witness :
    Lazy.minimax gLeaf (9 + 1) (-50) 50 1 1 false [] = .ok 1 [] ∧
    Eager.minimax gLeaf (9 + 1) (-50) 50 (Eager.node.mk 1 1 false []) [] = .ok 99 [] := by
  have h := @claim_C8 Nat _ gLeaf 9 (-50) 50 1 1 false [] (by decide) (by decide)
  constructor
  · rw [h.1]
    decide
  · rw [h.2]
    decide

/-- C9 (amended): under the intended adapter contract — utilities strictly
inside `(-SCORE, SCORE)` and every reachable terminal shallower than
SCORE — the evaluator's child loop always finds a strictly improving first
child, `bestMove` is non-nil at the cache write, and neither variant
dereferences a nil `bestMove`.  Without the utility-range hypothesis the
write does panic (see the counterexample): the claim's stated depth
condition alone does not rule it out, because a childless non-terminal
child returns its raw utility, which can lie outside the window. -/
theorem claim_C9 {a : Adapter T} (hu : UtilOK a) {F : Nat} {s : T} {d : Nat}
    {m : Bool} {v alpha beta : Int} {mp : List (T × T)}
    (hd : DepthOK a s d) (hmm : mm a F s d m = some v)
    (hal : -score ≤ alpha) (hab : alpha < beta) (hbe : beta ≤ score)
    (hterm : ∀ t, a.isTerminal t = true → a.successors t = [])
    (hnc : ∀ t, a.isTerminal t = false → a.successors t ≠ []) :
    Lazy.minimax a F alpha beta s d m mp ≠ .panicked ∧
    ∀ tr, Eager.makeNode a F s d m = some tr →
      Eager.minimax a F alpha beta tr mp ≠ .panicked := by
  constructor
  · rcases lazy_minimax_spec hu F s d m alpha beta v mp hmm hd hal hab hbe
      with ⟨w, mp1, hrun, _⟩
    rw [hrun]
    intro h
    cases h
  · rcases eager_spec hu hterm hnc F s d m v hmm hd with ⟨tr0, hbuild, heval⟩
    intro tr htr
    rw [hbuild] at htr
    cases htr
    rcases heval alpha beta mp with ⟨mp1, hrun, _⟩
    rw [hrun]
    intro h
    cases h

/-- C9 counterexample: `gBigUtil` satisfies the claim's reachable-depth
condition (no state is terminal, so it holds vacuously), yet state 1 is a
childless non-terminal child whose raw utility −1000 lies below −SCORE: no
child ever strictly improves on the initial running maximum, `bestMove`
stays nil, and the cache write panics. -/
theorem claim_C9_counterexample :
    DepthOK gBigUtil 0 0 ∧
    gBigUtil.isTerminal 0 = false ∧
    gBigUtil.successors 0 = [1] ∧
    Lazy.minimax gBigUtil 10 (-score) score 0 0 true [] = .panicked := by
  refine ⟨fun t e hr ht => absurd ht (by simp [gBigUtil]), by decide, by decide, by decide⟩

/-- C9 witness at `gWell`, root 0, full window. -/
theorem claim_C9_witness :
    Lazy.minimax gWell 10 (-score) score 0 0 true [] ≠ Res.panicked ∧
    Eager.minimax gWell 10 (-score) score trWell [] ≠ Res.panicked := by
  have hmm0 : mm gWell 10 0 0 true = some 99 := by decide
  have h := @claim_C9 Nat _ gWell gWell_util 10 0 0 true 99 (-score) score []
    (gWell_depthok 0 0 (by decide) (by decide)) hmm0
    (le_refl (-score)) (by decide) (le_refl score) gWell_term gWell_nc
  exact ⟨h.1, h.2 trWell rfl⟩

/-- C10: `Solve` has a value receiver, so the rebuild's map replacement
mutates only the call's local copy of the engine: every call in any
sequence of `Solve` calls on one engine observes exactly the cache the
original `Make` produced, unchanged by earlier calls. -/
theorem claim_C10 {a : Adapter T} {F : Nat} {r : T} {m : Bool} {e : Minimax T}
    (hMake : Lazy.Make F r a.isTerminal a.utility a.successors m = some e) :
    (∃ w, Lazy.minimax a F (-score) score r 0 m [] = .ok w e.moveMap) ∧
    ∀ (f : Nat) (qs : List T) (pr : SolveRes T × List (T × T)),
      pr ∈ solveSeq F f e qs → pr.2 = e.moveMap := by
  constructor
  · rcases lazy_Make_destruct hMake with ⟨w, mp1, hrun, he⟩
    subst he
    exact ⟨w, hrun⟩
  · intro f qs
    induction qs with
    | nil =>
      intro pr hpr
      cases hpr
    | cons q rest ih =>
      intro pr hpr
      rcases List.mem_cons.mp hpr with rfl | hpr2
      · rfl
      · exact ih pr hpr2

/-- C10 witness: on `gBranch`, the cache observed by a rebuilding `Solve`
call is still the cache `Make` produced. -/
theorem claim_C10_witness :
    ((SolveRes.ret (some 5) 1, [(0, 1), (2, 3)]) :
      SolveRes Nat × List (Nat × Nat)).2 = eBranch.moveMap := by
  exact (@claim_C10 Nat _ gBranch 10 0 true eBranch rfl).2 5 [4]
    (SolveRes.ret (some 5) 1, [(0, 1), (2, 3)]) (by decide)

end MinimaxGo
